import Mathlib

/-!
# Shallow embedding of the ESWIN SDHCI-SDIO tuning engine

Source: `drivers/mmc/host/sdhci-of-eswin-sdio.c` (sifive/riscv-linux).

The three C functions embedded here are
`eswin_sdhci_sdio_delay_tuning` (lines 174-233),
`eswin_sdhci_sdio_phase_code_tuning` (lines 235-282) and
`eswin_sdhci_sdio_executing_tuning` (lines 284-339).

Modelling conventions:
* `mmc_send_tuning` is abstracted by an oracle `r : Nat → Int` giving the
  value returned for a probe at a given delay/phase code (`0` = pass,
  a negative errno = fail), matching the spec's "synthetic pass/fail oracle".
* Register writes, clock gating, probes and command/data resets are recorded
  as an event trace, so that claims about which probes are issued and about
  clock gating around register writes can be stated.
* C `int` division truncates toward zero; `Int.tdiv` has exactly that
  semantics, so `(delay_min + delay_max) / 2` is embedded as `Int.tdiv`.
* The C loop counters range over `0 .. MAX` for the constants
  `PHY_DELAY_CODE_MAX` and `MAX_PHASE_CODE`, which are defined in
  `sdhci-eswin.h` (not part of the analysed sources); the embedding is
  therefore parametric in the two bounds (`maxCode`, `maxPhase`), and in the
  configured fallback delay code `eswin_sdhci->phy.delay_code`.
-/

/-- C `int` division: truncation toward zero. -/
def cdiv (a b : Int) : Int := Int.tdiv a b

/-- `#define DELAY_RANGE_THRESHOLD 20` (line 46 of the source). -/
def DELAY_RANGE_THRESHOLD : Int := 20

/-- errno `EIO`; the phase scanner returns `-EIO` on exhaustion. -/
def EIO_ERRNO : Int := 5

/-- Observable actions of the tuning engine.

* `configPhyDelay c` stands for the three-register write sequence of
  `eswin_sdhci_sdio_config_phy_delay` (arm `PHY_SDCLKDL_CNFG_R`, write the
  masked code to `PHY_SDCLKDL_DC_R`, disarm `PHY_SDCLKDL_CNFG_R`); `c` is the
  argument handed to that function.
* `writePhase c` is `sdhci_writew(host, c, VENDOR_AT_SATA_R)`.
* `probeDelay i` / `probePhase i` is one `mmc_send_tuning` round-trip issued
  while the hardware is programmed with delay code / phase code `i`.
* `writeCtrl` covers the `SDHCI_HOST_CONTROL2` and `VENDOR_AT_CTRL_R`
  updates of the orchestrator; `writeCmdData` is the
  `sdhci_writew(host, 0x0, SDHCI_CMD_DATA)` write; neither touches a tuning
  register.
* `resetCmdData` is `host->ops->reset(host, SDHCI_RESET_CMD | SDHCI_RESET_DATA)`
  followed by the 200 microsecond settle delay. -/
inductive Event where
  | disableClk : Event
  | enableClk : Event
  | configPhyDelay : Int → Event
  | writePhase : Int → Event
  | probeDelay : Nat → Event
  | probePhase : Nat → Event
  | resetCmdData : Event
  | writeCtrl : Event
  | writeCmdData : Event
  deriving DecidableEq, Repr

/-- Local state of `eswin_sdhci_sdio_delay_tuning`: the C locals `delay`,
`delay_min`, `delay_max`, `delay_range`, `ret`, plus an explicit `broke` flag
(the C `break`) and the event trace accumulated so far. -/
structure DelaySt where
  delay : Int
  delay_min : Int
  delay_max : Int
  delay_range : Int
  ret : Int
  broke : Bool
  tr : List Event
  deriving DecidableEq, Repr

/-- One iteration of the delay-tuning `for` loop (source lines 188-215) at
loop index `i`. If the loop has already been left (`broke`), nothing happens. -/
def delayStep (r : Nat → Int) (s : DelaySt) (i : Nat) : DelaySt :=
  if s.broke then s else
  let tr1 := s.tr ++ [Event.disableClk, Event.configPhyDelay (Int.ofNat i),
                      Event.enableClk, Event.probeDelay i]
  if r i ≠ 0 then
    let s1 : DelaySt := { s with ret := r i, tr := tr1 ++ [Event.resetCmdData] }
    if s1.delay_min ≠ -1 ∧ s1.delay_max ≠ -1 then
      if s1.delay_max - s1.delay_min > s1.delay_range then
        let s2 : DelaySt :=
          { s1 with delay_range := s1.delay_max - s1.delay_min,
                    delay := cdiv (s1.delay_min + s1.delay_max) 2 }
        if s2.delay_range > DELAY_RANGE_THRESHOLD then
          { s2 with broke := true }
        else
          { s2 with delay_min := -1, delay_max := -1 }
      else
        { s1 with delay_min := -1, delay_max := -1 }
    else s1
  else
    if s.delay_min = -1 then
      { s with ret := 0, tr := tr1, delay_min := Int.ofNat i }
    else
      { s with ret := 0, tr := tr1, delay_max := Int.ofNat i }

/-- The delay-tuning loop over a list of loop indices. -/
def delayScan (r : Nat → Int) (l : List Nat) (s : DelaySt) : DelaySt :=
  l.foldl (delayStep r) s

/-- Values of the locals on entry to the loop.  (`ret` is uninitialised in
the C source; the loop body always assigns it before it is read, because
`PHY_DELAY_CODE_MAX >= 0` makes the loop run at least once.) -/
def delayInit : DelaySt :=
  { delay := -1, delay_min := -1, delay_max := -1, delay_range := -1,
    ret := 0, broke := false, tr := [] }

/-- State of the delay scanner after the first `k` loop iterations. -/
def delayUpTo (r : Nat → Int) (k : Nat) : DelaySt :=
  delayScan r (List.range' 0 k) delayInit

/-- Result of one scanner: the returned status, the code handed to the final
hardware commit (`configPhyDelay` / `writePhase`), and the full event trace. -/
structure TuningOut where
  ret : Int
  committed : Int
  tr : List Event
  deriving DecidableEq, Repr

/-- `eswin_sdhci_sdio_delay_tuning` (source lines 174-233).  `maxCode` is
`PHY_DELAY_CODE_MAX`; `fallback` is the configured static delay code
`eswin_sdhci->phy.delay_code`. -/
def eswin_sdhci_sdio_delay_tuning (r : Nat → Int) (maxCode : Nat)
    (fallback : Int) : TuningOut :=
  let s := delayScan r (List.range' 0 (maxCode + 1)) delayInit
  if s.delay = -1 then
    { ret := s.ret, committed := fallback,
      tr := s.tr ++ [Event.disableClk, Event.configPhyDelay fallback,
                     Event.enableClk] }
  else
    { ret := 0, committed := s.delay,
      tr := s.tr ++ [Event.disableClk, Event.configPhyDelay s.delay,
                     Event.enableClk] }

/-- Local state of `eswin_sdhci_sdio_phase_code_tuning`: the C locals
`ret`, `code_min`, `code_max`, the `break` flag and the trace. -/
structure PhaseSt where
  ret : Int
  code_min : Int
  code_max : Int
  broke : Bool
  tr : List Event
  deriving DecidableEq, Repr

/-- One iteration of the phase-tuning `for` loop (source lines 244-263) at
loop index `i`. -/
def phaseStep (r : Nat → Int) (s : PhaseSt) (i : Nat) : PhaseSt :=
  if s.broke then s else
  let tr1 := s.tr ++ [Event.disableClk, Event.writePhase (Int.ofNat i),
                      Event.enableClk, Event.probePhase i]
  if r i ≠ 0 then
    let s1 : PhaseSt := { s with ret := r i, tr := tr1 ++ [Event.resetCmdData] }
    if s1.code_min ≠ -1 ∧ s1.code_max ≠ -1 then { s1 with broke := true }
    else s1
  else
    if s.code_min = -1 then
      { s with ret := 0, tr := tr1, code_min := Int.ofNat i }
    else
      { s with ret := 0, tr := tr1, code_max := Int.ofNat i }

/-- The phase-tuning loop over a list of loop indices. -/
def phaseScan (r : Nat → Int) (l : List Nat) (s : PhaseSt) : PhaseSt :=
  l.foldl (phaseStep r) s

/-- Values of the locals on entry to the phase loop. -/
def phaseInit : PhaseSt :=
  { ret := 0, code_min := -1, code_max := -1, broke := false, tr := [] }

/-- State of the phase scanner after the first `k` loop iterations. -/
def phaseUpTo (r : Nat → Int) (k : Nat) : PhaseSt :=
  phaseScan r (List.range' 0 k) phaseInit

/-- `eswin_sdhci_sdio_phase_code_tuning` (source lines 235-282).  `maxPhase`
is `MAX_PHASE_CODE`. -/
def eswin_sdhci_sdio_phase_code_tuning (r : Nat → Int) (maxPhase : Nat) :
    TuningOut :=
  let s := phaseScan r (List.range' 0 (maxPhase + 1)) phaseInit
  if s.code_min = -1 ∧ s.code_max = -1 then
    { ret := -EIO_ERRNO, committed := 0,
      tr := s.tr ++ [Event.disableClk, Event.writePhase 0, Event.enableClk] }
  else
    let pc := cdiv (s.code_min + s.code_max) 2
    { ret := 0, committed := pc,
      tr := s.tr ++ [Event.disableClk, Event.writePhase pc, Event.enableClk] }

/-- The per-instance configuration `struct eswin_sdio_private`
(`phase_code`, `enable_sw_tuning`); `phase_code = -1` means "unset". -/
structure SdioPrivate where
  phase_code : Int
  enable_sw_tuning : Bool
  deriving DecidableEq, Repr

/-- Result of the orchestrator: status and event trace. -/
structure ExecOut where
  ret : Int
  tr : List Event
  deriving DecidableEq, Repr

/-- `eswin_sdhci_sdio_executing_tuning` (source lines 284-339).  `rd` and
`rp` are the oracles seen by the delay and phase scans respectively. -/
def eswin_sdhci_sdio_executing_tuning (rd rp : Nat → Int) (cfg : SdioPrivate)
    (maxCode maxPhase : Nat) (fallback : Int) : ExecOut :=
  if ¬ cfg.enable_sw_tuning then
    if cfg.phase_code ≠ -1 then
      { ret := 0, tr := [Event.disableClk, Event.writePhase cfg.phase_code,
                         Event.enableClk] }
    else
      { ret := 0, tr := [] }
  else
    let pre : List Event :=
      [Event.disableClk, Event.writeCtrl, Event.writeCtrl, Event.writePhase 0,
       Event.enableClk, Event.writeCmdData]
    let d := eswin_sdhci_sdio_delay_tuning rd maxCode fallback
    if d.ret < 0 then
      { ret := d.ret, tr := pre ++ d.tr }
    else
      let p := eswin_sdhci_sdio_phase_code_tuning rp maxPhase
      if p.ret < 0 then
        { ret := p.ret, tr := pre ++ d.tr ++ p.tr }
      else
        { ret := 0, tr := pre ++ d.tr ++ p.tr }

/-- The delay codes probed in a trace, in order. -/
def probeDelayCodes : List Event → List Nat
  | [] => []
  | Event.probeDelay c :: es => c :: probeDelayCodes es
  | _ :: es => probeDelayCodes es

/-- The phase codes probed in a trace, in order. -/
def probePhaseCodes : List Event → List Nat
  | [] => []
  | Event.probePhase c :: es => c :: probePhaseCodes es
  | _ :: es => probePhaseCodes es

/-- Is this event a write to a tuning register (the delay-line registers
`PHY_SDCLKDL_CNFG_R`/`PHY_SDCLKDL_DC_R`, or the phase register
`VENDOR_AT_SATA_R`)? -/
def isTuningWrite : Event → Bool
  | Event.configPhyDelay _ => true
  | Event.writePhase _ => true
  | _ => false

/-- Is this event `eswin_sdhci_enable_card_clk`? -/
def isEnableClk : Event → Bool
  | Event.enableClk => true
  | _ => false

/-- Card-clock state after one event (`true` = clock running). -/
def clkNext (b : Bool) : Event → Bool
  | Event.disableClk => false
  | Event.enableClk => true
  | _ => b

/-- Card-clock state after a list of events, starting from state `b`. -/
def finalClk (b : Bool) (l : List Event) : Bool := l.foldl clkNext b

/-- Clock-gating discipline: starting from clock state `b`, every write to a
tuning register happens while the card clock is disabled (so the nearest
preceding clock action is a disable) and an enable follows it later. -/
def gatedFrom (b : Bool) : List Event → Bool
  | [] => true
  | e :: rest =>
    (if isTuningWrite e then (!b) && rest.any isEnableClk else true) &&
    gatedFrom (clkNext b e) rest

/-- A trace fragment that starts and ends with the card clock running and is
internally well gated. -/
def wellBracketed (l : List Event) : Bool :=
  gatedFrom true l && finalClk true l

/-- Single-run pass/fail oracle: the probe passes exactly on `[a, b]`. -/
def oraRun (a b : Nat) : Nat → Int :=
  fun i => if a ≤ i ∧ i ≤ b then 0 else -5

/-- Two-run pass/fail oracle: the probe passes exactly on
`[a1, b1] ∪ [a2, b2]`. -/
def oraTwoRuns (a1 b1 a2 b2 : Nat) : Nat → Int :=
  fun i => if (a1 ≤ i ∧ i ≤ b1) ∨ (a2 ≤ i ∧ i ≤ b2) then 0 else -5

/-- The all-fail oracle: every tuning command fails. -/
def oraFail : Nat → Int := fun _ => -5

/-- The all-pass oracle: every tuning command succeeds. -/
def oraPass : Nat → Int := fun _ => 0

/-- Properties that hold of the delay-scanner state after `k` iterations:
the window bounds are the `-1` sentinel or previously visited codes, an
un-broken scan has never seen a range above the threshold, and `break` is
only ever reached with a candidate `delay` recorded. -/
def DelayInv (k : Nat) (s : DelaySt) : Prop :=
  (s.delay_min = -1 ∨ (0 ≤ s.delay_min ∧ s.delay_min < Int.ofNat k)) ∧
  (s.delay_max = -1 ∨ (0 ≤ s.delay_max ∧ s.delay_max < Int.ofNat k)) ∧
  (s.broke = false → s.delay_range ≤ DELAY_RANGE_THRESHOLD) ∧
  (s.broke = true → s.delay ≠ -1)

theorem delayStep_broke (r : Nat → Int) (s : DelaySt) (i : Nat)
    (h : s.broke = true) : delayStep r s i = s := by
  simp [delayStep, h]

theorem delayScan_nil (r : Nat → Int) (s : DelaySt) : delayScan r [] s = s :=
  rfl

theorem delayScan_cons (r : Nat → Int) (i : Nat) (l : List Nat) (s : DelaySt) :
    delayScan r (i :: l) s = delayScan r l (delayStep r s i) :=
  rfl

theorem delayScan_append (r : Nat → Int) (l1 l2 : List Nat) (s : DelaySt) :
    delayScan r (l1 ++ l2) s = delayScan r l2 (delayScan r l1 s) :=
  List.foldl_append _ _ _ _

theorem delayScan_broke (r : Nat → Int) (l : List Nat) (s : DelaySt)
    (h : s.broke = true) : delayScan r l s = s := by
  induction l with
  | nil => rfl
  | cons i l ih => rw [delayScan_cons, delayStep_broke r s i h, ih]

theorem delayScan_broke_mono (r : Nat → Int) (l : List Nat) (s : DelaySt)
    (h : (delayScan r l s).broke = false) : s.broke = false := by
  by_contra hs
  rw [delayScan_broke r l s (by simpa using hs)] at h
  simp_all

theorem delayUpTo_succ (r : Nat → Int) (k : Nat) :
    delayUpTo r (k + 1) = delayStep r (delayUpTo r k) k := by
  have h : List.range' 0 (k + 1) = List.range' 0 k ++ [k] := by
    have := List.range'_append 0 k 1 1
    rw [Nat.add_comm k 1]
    simpa using this.symm
  rw [delayUpTo, h, delayScan_append]
  rfl

theorem delayStep_pass (r : Nat → Int) (s : DelaySt) (i : Nat)
    (hp : r i = 0) (hb : s.broke = false) :
    delayStep r s i =
      { s with ret := 0,
               tr := s.tr ++ [Event.disableClk, Event.configPhyDelay (Int.ofNat i),
                              Event.enableClk, Event.probeDelay i],
               delay_min := if s.delay_min = -1 then Int.ofNat i else s.delay_min,
               delay_max := if s.delay_min = -1 then s.delay_max else Int.ofNat i } := by
  by_cases hm : s.delay_min = -1 <;> simp [delayStep, hp, hb, hm]

theorem delayStep_fail_nowin (r : Nat → Int) (s : DelaySt) (i : Nat)
    (hf : r i ≠ 0) (hb : s.broke = false)
    (hm : s.delay_min = -1 ∨ s.delay_max = -1) :
    delayStep r s i =
      { s with ret := r i,
               tr := s.tr ++ [Event.disableClk, Event.configPhyDelay (Int.ofNat i),
                              Event.enableClk, Event.probeDelay i,
                              Event.resetCmdData] } := by
  rcases hm with hm | hm <;> simp [delayStep, hf, hb, hm]

theorem delayStep_fail_close (r : Nat → Int) (s : DelaySt) (i : Nat)
    (hf : r i ≠ 0) (hb : s.broke = false)
    (hm : s.delay_min ≠ -1) (hM : s.delay_max ≠ -1)
    (hgt : s.delay_max - s.delay_min > s.delay_range) :
    delayStep r s i =
      (if s.delay_max - s.delay_min > DELAY_RANGE_THRESHOLD then
        { s with ret := r i,
                 tr := s.tr ++ [Event.disableClk, Event.configPhyDelay (Int.ofNat i),
                                Event.enableClk, Event.probeDelay i,
                                Event.resetCmdData],
                 delay_range := s.delay_max - s.delay_min,
                 delay := cdiv (s.delay_min + s.delay_max) 2,
                 broke := true }
      else
        { s with ret := r i,
                 tr := s.tr ++ [Event.disableClk, Event.configPhyDelay (Int.ofNat i),
                                Event.enableClk, Event.probeDelay i,
                                Event.resetCmdData],
                 delay_range := s.delay_max - s.delay_min,
                 delay := cdiv (s.delay_min + s.delay_max) 2,
                 delay_min := -1, delay_max := -1 }) := by
  by_cases hth : s.delay_max - s.delay_min > DELAY_RANGE_THRESHOLD <;>
    simp [delayStep, hf, hb, hm, hM, hgt, hth]

theorem delayStep_fail_stale (r : Nat → Int) (s : DelaySt) (i : Nat)
    (hf : r i ≠ 0) (hb : s.broke = false)
    (hm : s.delay_min ≠ -1) (hM : s.delay_max ≠ -1)
    (hle : ¬ s.delay_max - s.delay_min > s.delay_range) :
    delayStep r s i =
      { s with ret := r i,
               tr := s.tr ++ [Event.disableClk, Event.configPhyDelay (Int.ofNat i),
                              Event.enableClk, Event.probeDelay i,
                              Event.resetCmdData],
               delay_min := -1, delay_max := -1 } := by
  simp [delayStep, hf, hb, hm, hM, hle]

theorem delayScan_fail_run (r : Nat → Int) :
    ∀ (n a : Nat) (s : DelaySt), (∀ i, a ≤ i → i < a + n → r i ≠ 0) →
    s.broke = false → s.delay_max = -1 →
    (delayScan r (List.range' a n) s).delay = s.delay ∧
    (delayScan r (List.range' a n) s).delay_min = s.delay_min ∧
    (delayScan r (List.range' a n) s).delay_max = -1 ∧
    (delayScan r (List.range' a n) s).delay_range = s.delay_range ∧
    (delayScan r (List.range' a n) s).broke = false ∧
    (delayScan r (List.range' a n) s).ret =
      (if n = 0 then s.ret else r (a + n - 1)) := by
  intro n
  induction n with
  | zero => intro a s hfail hb hM; simp [delayScan_nil, hb, hM]
  | succ n ih =>
    intro a s hfail hb hM
    rw [List.range'_succ, delayScan_cons,
        delayStep_fail_nowin r s a (hfail a le_rfl (by omega)) hb (Or.inr hM)]
    have := ih (a + 1)
      { s with ret := r a,
               tr := s.tr ++ [Event.disableClk, Event.configPhyDelay (Int.ofNat a),
                              Event.enableClk, Event.probeDelay a,
                              Event.resetCmdData] }
      (fun i h1 h2 => hfail i (by omega) (by omega)) (by simp [hb]) (by simp [hM])
    rcases this with ⟨h1, h2, h3, h4, h5, h6⟩
    refine ⟨by simpa using h1, by simpa using h2, h3, by simpa using h4, h5, ?_⟩
    rw [h6]
    rcases Nat.eq_zero_or_pos n with hn | hn
    · simp [hn]
    · have hne : ¬ (n + 1 = 0) := by omega
      have harith : a + 1 + n - 1 = a + (n + 1) - 1 := by omega
      simp [Nat.pos_iff_ne_zero.mp hn, hne, harith]

theorem delayScan_pass_minset (r : Nat → Int) :
    ∀ (n a : Nat) (s : DelaySt), (∀ i, a ≤ i → i < a + n → r i = 0) →
    s.broke = false → s.delay_min ≠ -1 →
    (delayScan r (List.range' a n) s).delay = s.delay ∧
    (delayScan r (List.range' a n) s).delay_min = s.delay_min ∧
    (delayScan r (List.range' a n) s).delay_range = s.delay_range ∧
    (delayScan r (List.range' a n) s).broke = false ∧
    (delayScan r (List.range' a n) s).delay_max =
      (if n = 0 then s.delay_max else Int.ofNat (a + n - 1)) ∧
    (delayScan r (List.range' a n) s).ret = (if n = 0 then s.ret else 0) := by
  intro n
  induction n with
  | zero => intro a s hpass hb hm; simp [delayScan_nil, hb]
  | succ n ih =>
    intro a s hpass hb hm
    rw [List.range'_succ, delayScan_cons,
        delayStep_pass r s a (hpass a le_rfl (by omega)) hb]
    have := ih (a + 1)
      { s with ret := 0,
               tr := s.tr ++ [Event.disableClk, Event.configPhyDelay (Int.ofNat a),
                              Event.enableClk, Event.probeDelay a],
               delay_min := if s.delay_min = -1 then Int.ofNat a else s.delay_min,
               delay_max := if s.delay_min = -1 then s.delay_max else Int.ofNat a }
      (fun i h1 h2 => hpass i (by omega) (by omega)) (by simp [hb])
      (by simp [hm])
    rcases this with ⟨h1, h2, h3, h4, h5, h6⟩
    refine ⟨by simpa using h1, by simpa [hm] using h2, by simpa using h3, h4, ?_, ?_⟩
    · rw [h5]
      rcases Nat.eq_zero_or_pos n with hn | hn
      · simp [hn, hm]
      · have hne : ¬ (n + 1 = 0) := by omega
        have harith : a + 1 + n - 1 = a + (n + 1) - 1 := by omega
        simp [Nat.pos_iff_ne_zero.mp hn, hne, harith]
    · rw [h6]
      rcases Nat.eq_zero_or_pos n with hn | hn
      · simp [hn]
      · simp [Nat.pos_iff_ne_zero.mp hn]

theorem delayScan_pass_fromempty (r : Nat → Int) (n a : Nat) (s : DelaySt)
    (hn : 0 < n) (hpass : ∀ i, a ≤ i → i < a + n → r i = 0)
    (hb : s.broke = false) (hm : s.delay_min = -1) :
    (delayScan r (List.range' a n) s).delay = s.delay ∧
    (delayScan r (List.range' a n) s).delay_min = Int.ofNat a ∧
    (delayScan r (List.range' a n) s).delay_range = s.delay_range ∧
    (delayScan r (List.range' a n) s).broke = false ∧
    (delayScan r (List.range' a n) s).delay_max =
      (if n = 1 then s.delay_max else Int.ofNat (a + n - 1)) ∧
    (delayScan r (List.range' a n) s).ret = 0 := by
  obtain ⟨m, rfl⟩ : ∃ m, n = m + 1 := ⟨n - 1, by omega⟩
  rw [List.range'_succ, delayScan_cons,
      delayStep_pass r s a (hpass a le_rfl (by omega)) hb]
  have := delayScan_pass_minset r m (a + 1)
    { s with ret := 0,
             tr := s.tr ++ [Event.disableClk, Event.configPhyDelay (Int.ofNat a),
                            Event.enableClk, Event.probeDelay a],
             delay_min := if s.delay_min = -1 then Int.ofNat a else s.delay_min,
             delay_max := if s.delay_min = -1 then s.delay_max else Int.ofNat a }
    (fun i h1 h2 => hpass i (by omega) (by omega)) (by simp [hb])
    (by simp [hm])
  rcases this with ⟨h1, h2, h3, h4, h5, h6⟩
  refine ⟨by simpa using h1, by simpa [hm] using h2, by simpa using h3, h4, ?_, ?_⟩
  · rw [h5]
    rcases Nat.eq_zero_or_pos m with hm0 | hm0
    · simp [hm0, hm]
    · have hne : ¬ (m = 0) := by omega
      have hne1 : ¬ (m + 1 = 1) := by omega
      have harith : a + 1 + m - 1 = a + (m + 1) - 1 := by omega
      simp [hne, hne1, harith]
  · rw [h6]
    rcases Nat.eq_zero_or_pos m with hm0 | hm0
    · simp [hm0]
    · simp [Nat.pos_iff_ne_zero.mp hm0]

theorem sentinel_mono {x : Int} {k : Nat}
    (h : x = -1 ∨ (0 ≤ x ∧ x < Int.ofNat k)) :
    x = -1 ∨ (0 ≤ x ∧ x < Int.ofNat (k + 1)) := by
  simp only [Int.ofNat_eq_natCast] at h ⊢
  rcases h with h | h
  · exact Or.inl h
  · right
    refine ⟨h.1, ?_⟩
    have := h.2
    omega

theorem cdiv_two_nonneg {a : Int} (h : 0 ≤ a) : 0 ≤ cdiv a 2 :=
  Int.tdiv_nonneg h (by omega)

theorem delayStep_inv (r : Nat → Int) (k : Nat) (s : DelaySt)
    (h : DelayInv k s) : DelayInv (k + 1) (delayStep r s k) := by
  obtain ⟨h1, h2, h3, h4⟩ := h
  unfold DelayInv
  by_cases hb : s.broke = true
  · rw [delayStep_broke r s k hb]
    exact ⟨sentinel_mono h1, sentinel_mono h2, h3, h4⟩
  have hb' : s.broke = false := by simpa using hb
  by_cases hp : r k = 0
  · rw [delayStep_pass r s k hp hb']
    refine ⟨?_, ?_, ?_, ?_⟩
    · by_cases hm : s.delay_min = -1
      · simp only [if_pos hm]
        try dsimp only
        simp only [Int.ofNat_eq_natCast]
        omega
      · simp only [if_neg hm]
        try dsimp only
        rcases h1 with e | e
        · exact absurd e hm
        · right
          simp only [Int.ofNat_eq_natCast] at e ⊢
          refine ⟨e.1, ?_⟩
          have := e.2
          omega
    · by_cases hm : s.delay_min = -1
      · simp only [if_pos hm]
        try dsimp only
        exact sentinel_mono h2
      · simp only [if_neg hm]
        try dsimp only
        right
        simp only [Int.ofNat_eq_natCast]
        omega
    · intro _
      try dsimp only
      exact h3 hb'
    · dsimp only
      simp [hb']
  · by_cases hw : s.delay_min ≠ -1 ∧ s.delay_max ≠ -1
    · obtain ⟨e1, e2⟩ : 0 ≤ s.delay_min ∧ 0 ≤ s.delay_max := by
        rcases h1 with e | e
        · exact absurd e hw.1
        rcases h2 with f | f
        · exact absurd f hw.2
        exact ⟨e.1, f.1⟩
      by_cases hgt : s.delay_max - s.delay_min > s.delay_range
      · rw [delayStep_fail_close r s k hp hb' hw.1 hw.2 hgt]
        by_cases hth : s.delay_max - s.delay_min > DELAY_RANGE_THRESHOLD
        · rw [if_pos hth]
          refine ⟨sentinel_mono h1, sentinel_mono h2, by simp, ?_⟩
          intro _
          try dsimp only
          have := cdiv_two_nonneg (a := s.delay_min + s.delay_max) (by omega)
          omega
        · rw [if_neg hth]
          refine ⟨Or.inl rfl, Or.inl rfl, ?_, by simp [hb']⟩
          intro _
          try dsimp only
          omega
      · rw [delayStep_fail_stale r s k hp hb' hw.1 hw.2 hgt]
        refine ⟨Or.inl rfl, Or.inl rfl, fun _ => ?_, by simp [hb']⟩
        try dsimp only
        exact h3 hb'
    · have hw' : s.delay_min = -1 ∨ s.delay_max = -1 := by tauto
      rw [delayStep_fail_nowin r s k hp hb' hw']
      refine ⟨sentinel_mono h1, sentinel_mono h2, fun _ => ?_, by simp [hb']⟩
      try dsimp only
      exact h3 hb'

theorem delayScan_inv (r : Nat → Int) :
    ∀ (n k : Nat) (s : DelaySt), DelayInv k s →
    DelayInv (k + n) (delayScan r (List.range' k n) s) := by
  intro n
  induction n with
  | zero => intro k s h; simpa [delayScan_nil] using h
  | succ n ih =>
    intro k s h
    rw [List.range'_succ, delayScan_cons]
    have := ih (k + 1) (delayStep r s k) (delayStep_inv r k s h)
    have harith : k + 1 + n = k + (n + 1) := by omega
    rwa [harith] at this

theorem delayInit_inv : DelayInv 0 delayInit := by
  refine ⟨Or.inl rfl, Or.inl rfl, fun _ => ?_, fun hx => ?_⟩
  · unfold delayInit DELAY_RANGE_THRESHOLD
    norm_num
  · simp [delayInit] at hx

theorem delayUpTo_inv (r : Nat → Int) (k : Nat) :
    DelayInv k (delayUpTo r k) := by
  have := delayScan_inv r k 0 delayInit delayInit_inv
  simpa [delayUpTo] using this

theorem probeDelayCodes_append (l1 l2 : List Event) :
    probeDelayCodes (l1 ++ l2) = probeDelayCodes l1 ++ probeDelayCodes l2 := by
  induction l1 with
  | nil => rfl
  | cons e l ih => cases e <;> simp [probeDelayCodes, ih]

theorem probePhaseCodes_append (l1 l2 : List Event) :
    probePhaseCodes (l1 ++ l2) = probePhaseCodes l1 ++ probePhaseCodes l2 := by
  induction l1 with
  | nil => rfl
  | cons e l ih => cases e <;> simp [probePhaseCodes, ih]

theorem finalClk_append (b : Bool) (l1 l2 : List Event) :
    finalClk b (l1 ++ l2) = finalClk (finalClk b l1) l2 :=
  List.foldl_append _ _ _ _

theorem gatedFrom_append (l1 l2 : List Event) :
    ∀ b, gatedFrom b l1 = true → gatedFrom (finalClk b l1) l2 = true →
    gatedFrom b (l1 ++ l2) = true := by
  induction l1 with
  | nil => intro b _ h2; simpa [finalClk] using h2
  | cons e l ih =>
    intro b h1 h2
    simp only [gatedFrom, List.cons_append, Bool.and_eq_true] at h1 ⊢
    refine ⟨?_, ih (clkNext b e) h1.2 h2⟩
    rcases h1 with ⟨hg, _⟩
    by_cases hw : isTuningWrite e = true
    · simp only [hw, if_pos, Bool.and_eq_true, List.append_eq, List.any_append,
                 Bool.or_eq_true] at hg ⊢
      exact ⟨hg.1, Or.inl hg.2⟩
    · have hw' : isTuningWrite e = false := by simpa using hw
      simp [hw']

theorem wellBracketed_append {l1 l2 : List Event}
    (h1 : wellBracketed l1 = true) (h2 : wellBracketed l2 = true) :
    wellBracketed (l1 ++ l2) = true := by
  unfold wellBracketed at h1 h2 ⊢
  simp only [Bool.and_eq_true] at h1 h2 ⊢
  refine ⟨gatedFrom_append l1 l2 true h1.1 ?_, ?_⟩
  · rw [h1.2]
    exact h2.1
  · rw [finalClk_append, h1.2]
    exact h2.2

theorem delayStep_tr (r : Nat → Int) (s : DelaySt) (i : Nat) :
    ∃ t, (delayStep r s i).tr = s.tr ++ t ∧
      wellBracketed t = true ∧
      probeDelayCodes t = (if s.broke = true then [] else [i]) ∧
      probePhaseCodes t = [] := by
  by_cases hb : s.broke = true
  · refine ⟨[], ?_, ?_, ?_, ?_⟩ <;>
      simp [delayStep_broke r s i hb, hb, wellBracketed, gatedFrom, finalClk,
            probeDelayCodes, probePhaseCodes]
  have hb' : s.broke = false := by simpa using hb
  by_cases hp : r i = 0
  · refine ⟨[Event.disableClk, Event.configPhyDelay (Int.ofNat i),
             Event.enableClk, Event.probeDelay i], ?_, ?_, ?_, ?_⟩
    · rw [delayStep_pass r s i hp hb']
    · simp [wellBracketed, gatedFrom, finalClk, clkNext, isTuningWrite,
            isEnableClk]
    · simp [hb', probeDelayCodes]
    · simp [probePhaseCodes]
  · refine ⟨[Event.disableClk, Event.configPhyDelay (Int.ofNat i),
             Event.enableClk, Event.probeDelay i, Event.resetCmdData],
           ?_, ?_, ?_, ?_⟩
    · simp only [delayStep, hb', hp]
      split_ifs <;> simp_all
    · simp [wellBracketed, gatedFrom, finalClk, clkNext, isTuningWrite,
            isEnableClk]
    · simp [hb', probeDelayCodes]
    · simp [probePhaseCodes]

theorem delayScan_tr (r : Nat → Int) :
    ∀ (l : List Nat) (s : DelaySt), ∃ t, (delayScan r l s).tr = s.tr ++ t ∧
      wellBracketed t = true ∧
      (∀ c ∈ probeDelayCodes t, c ∈ l) ∧
      probePhaseCodes t = [] := by
  intro l
  induction l with
  | nil =>
    intro s
    refine ⟨[], ?_, ?_, ?_, ?_⟩ <;>
      simp [delayScan_nil, wellBracketed, gatedFrom, finalClk, probeDelayCodes,
            probePhaseCodes]
  | cons i l ih =>
    intro s
    obtain ⟨t1, e1, w1, p1, q1⟩ := delayStep_tr r s i
    obtain ⟨t2, e2, w2, p2, q2⟩ := ih (delayStep r s i)
    refine ⟨t1 ++ t2, ?_, wellBracketed_append w1 w2, ?_, ?_⟩
    · rw [delayScan_cons, e2, e1, List.append_assoc]
    · intro c hc
      rw [probeDelayCodes_append] at hc
      rcases List.mem_append.mp hc with h | h
      · rw [p1] at h
        by_cases hbb : s.broke = true
        · simp [hbb] at h
        · simp only [if_neg hbb] at h
          simp at h
          simp [h]
      · exact List.mem_cons_of_mem i (p2 c h)
    · rw [probePhaseCodes_append, q1, q2]
      rfl

theorem delayUpTo_probes (r : Nat → Int) :
    ∀ k, (delayUpTo r k).broke = false →
    probeDelayCodes (delayUpTo r k).tr = List.range' 0 k := by
  intro k
  induction k with
  | zero => intro _; rfl
  | succ k ih =>
    intro hk
    rw [delayUpTo_succ] at hk ⊢
    have hkb : (delayUpTo r k).broke = false := by
      by_contra hx
      have hxx : (delayUpTo r k).broke = true := by simpa using hx
      rw [delayStep_broke r _ k hxx] at hk
      rw [hk] at hxx
      simp at hxx
    obtain ⟨t, e, w, p, q⟩ := delayStep_tr r (delayUpTo r k) k
    rw [e, probeDelayCodes_append, ih hkb, p, if_neg (by simp [hkb])]
    have := List.range'_1_concat 0 k
    simpa using this.symm

theorem phaseStep_broke (r : Nat → Int) (s : PhaseSt) (i : Nat)
    (h : s.broke = true) : phaseStep r s i = s := by
  simp [phaseStep, h]

theorem phaseScan_nil (r : Nat → Int) (s : PhaseSt) : phaseScan r [] s = s :=
  rfl

theorem phaseScan_cons (r : Nat → Int) (i : Nat) (l : List Nat) (s : PhaseSt) :
    phaseScan r (i :: l) s = phaseScan r l (phaseStep r s i) :=
  rfl

theorem phaseScan_append (r : Nat → Int) (l1 l2 : List Nat) (s : PhaseSt) :
    phaseScan r (l1 ++ l2) s = phaseScan r l2 (phaseScan r l1 s) :=
  List.foldl_append _ _ _ _

theorem phaseScan_broke (r : Nat → Int) (l : List Nat) (s : PhaseSt)
    (h : s.broke = true) : phaseScan r l s = s := by
  induction l with
  | nil => rfl
  | cons i l ih => rw [phaseScan_cons, phaseStep_broke r s i h, ih]

theorem phaseUpTo_succ (r : Nat → Int) (k : Nat) :
    phaseUpTo r (k + 1) = phaseStep r (phaseUpTo r k) k := by
  have h : List.range' 0 (k + 1) = List.range' 0 k ++ [k] := by
    have := List.range'_append 0 k 1 1
    rw [Nat.add_comm k 1]
    simpa using this.symm
  rw [phaseUpTo, h, phaseScan_append]
  rfl

theorem phaseStep_pass (r : Nat → Int) (s : PhaseSt) (i : Nat)
    (hp : r i = 0) (hb : s.broke = false) :
    phaseStep r s i =
      { s with ret := 0,
               tr := s.tr ++ [Event.disableClk, Event.writePhase (Int.ofNat i),
                              Event.enableClk, Event.probePhase i],
               code_min := if s.code_min = -1 then Int.ofNat i else s.code_min,
               code_max := if s.code_min = -1 then s.code_max else Int.ofNat i } := by
  by_cases hm : s.code_min = -1 <;> simp [phaseStep, hp, hb, hm]

theorem phaseStep_fail_nowin (r : Nat → Int) (s : PhaseSt) (i : Nat)
    (hf : r i ≠ 0) (hb : s.broke = false)
    (hm : s.code_min = -1 ∨ s.code_max = -1) :
    phaseStep r s i =
      { s with ret := r i,
               tr := s.tr ++ [Event.disableClk, Event.writePhase (Int.ofNat i),
                              Event.enableClk, Event.probePhase i,
                              Event.resetCmdData] } := by
  rcases hm with hm | hm <;> simp [phaseStep, hf, hb, hm]

theorem phaseStep_fail_stop (r : Nat → Int) (s : PhaseSt) (i : Nat)
    (hf : r i ≠ 0) (hb : s.broke = false)
    (hm : s.code_min ≠ -1) (hM : s.code_max ≠ -1) :
    phaseStep r s i =
      { s with ret := r i,
               tr := s.tr ++ [Event.disableClk, Event.writePhase (Int.ofNat i),
                              Event.enableClk, Event.probePhase i,
                              Event.resetCmdData],
               broke := true } := by
  simp [phaseStep, hf, hb, hm, hM]

theorem phaseScan_fail_run (r : Nat → Int) :
    ∀ (n a : Nat) (s : PhaseSt), (∀ i, a ≤ i → i < a + n → r i ≠ 0) →
    s.broke = false → s.code_max = -1 →
    (phaseScan r (List.range' a n) s).code_min = s.code_min ∧
    (phaseScan r (List.range' a n) s).code_max = -1 ∧
    (phaseScan r (List.range' a n) s).broke = false ∧
    (phaseScan r (List.range' a n) s).ret =
      (if n = 0 then s.ret else r (a + n - 1)) := by
  intro n
  induction n with
  | zero => intro a s hfail hb hM; simp [phaseScan_nil, hb, hM]
  | succ n ih =>
    intro a s hfail hb hM
    rw [List.range'_succ, phaseScan_cons,
        phaseStep_fail_nowin r s a (hfail a le_rfl (by omega)) hb (Or.inr hM)]
    have := ih (a + 1)
      { s with ret := r a,
               tr := s.tr ++ [Event.disableClk, Event.writePhase (Int.ofNat a),
                              Event.enableClk, Event.probePhase a,
                              Event.resetCmdData] }
      (fun i h1 h2 => hfail i (by omega) (by omega)) (by simp [hb]) (by simp [hM])
    rcases this with ⟨h1, h2, h3, h4⟩
    refine ⟨by simpa using h1, h2, h3, ?_⟩
    rw [h4]
    rcases Nat.eq_zero_or_pos n with hn | hn
    · simp [hn]
    · have hne : ¬ (n + 1 = 0) := by omega
      have harith : a + 1 + n - 1 = a + (n + 1) - 1 := by omega
      simp [Nat.pos_iff_ne_zero.mp hn, hne, harith]

theorem phaseStep_tr (r : Nat → Int) (s : PhaseSt) (i : Nat) :
    ∃ t, (phaseStep r s i).tr = s.tr ++ t ∧
      wellBracketed t = true ∧
      probePhaseCodes t = (if s.broke = true then [] else [i]) ∧
      probeDelayCodes t = [] := by
  by_cases hb : s.broke = true
  · refine ⟨[], ?_, ?_, ?_, ?_⟩ <;>
      simp [phaseStep_broke r s i hb, hb, wellBracketed, gatedFrom, finalClk,
            probeDelayCodes, probePhaseCodes]
  have hb' : s.broke = false := by simpa using hb
  by_cases hp : r i = 0
  · refine ⟨[Event.disableClk, Event.writePhase (Int.ofNat i),
             Event.enableClk, Event.probePhase i], ?_, ?_, ?_, ?_⟩
    · rw [phaseStep_pass r s i hp hb']
    · simp [wellBracketed, gatedFrom, finalClk, clkNext, isTuningWrite,
            isEnableClk]
    · simp [hb', probePhaseCodes]
    · simp [probeDelayCodes]
  · refine ⟨[Event.disableClk, Event.writePhase (Int.ofNat i),
             Event.enableClk, Event.probePhase i, Event.resetCmdData],
           ?_, ?_, ?_, ?_⟩
    · simp only [phaseStep, hb', hp]
      split_ifs <;> simp_all
    · simp [wellBracketed, gatedFrom, finalClk, clkNext, isTuningWrite,
            isEnableClk]
    · simp [hb', probePhaseCodes]
    · simp [probeDelayCodes]

theorem phaseScan_tr (r : Nat → Int) :
    ∀ (l : List Nat) (s : PhaseSt), ∃ t, (phaseScan r l s).tr = s.tr ++ t ∧
      wellBracketed t = true ∧
      (∀ c ∈ probePhaseCodes t, c ∈ l) ∧
      probeDelayCodes t = [] := by
  intro l
  induction l with
  | nil =>
    intro s
    refine ⟨[], ?_, ?_, ?_, ?_⟩ <;>
      simp [phaseScan_nil, wellBracketed, gatedFrom, finalClk, probeDelayCodes,
            probePhaseCodes]
  | cons i l ih =>
    intro s
    obtain ⟨t1, e1, w1, p1, q1⟩ := phaseStep_tr r s i
    obtain ⟨t2, e2, w2, p2, q2⟩ := ih (phaseStep r s i)
    refine ⟨t1 ++ t2, ?_, wellBracketed_append w1 w2, ?_, ?_⟩
    · rw [phaseScan_cons, e2, e1, List.append_assoc]
    · intro c hc
      rw [probePhaseCodes_append] at hc
      rcases List.mem_append.mp hc with h | h
      · rw [p1] at h
        by_cases hbb : s.broke = true
        · simp [hbb] at h
        · simp only [if_neg hbb] at h
          simp at h
          simp [h]
      · exact List.mem_cons_of_mem i (p2 c h)
    · rw [probeDelayCodes_append, q1, q2]
      rfl

theorem phaseUpTo_probes (r : Nat → Int) :
    ∀ k, (phaseUpTo r k).broke = false →
    probePhaseCodes (phaseUpTo r k).tr = List.range' 0 k := by
  intro k
  induction k with
  | zero => intro _; rfl
  | succ k ih =>
    intro hk
    rw [phaseUpTo_succ] at hk ⊢
    have hkb : (phaseUpTo r k).broke = false := by
      by_contra hx
      have hxx : (phaseUpTo r k).broke = true := by simpa using hx
      rw [phaseStep_broke r _ k hxx] at hk
      rw [hk] at hxx
      simp at hxx
    obtain ⟨t, e, w, p, q⟩ := phaseStep_tr r (phaseUpTo r k) k
    rw [e, probePhaseCodes_append, ih hkb, p, if_neg (by simp [hkb])]
    have := List.range'_1_concat 0 k
    simpa using this.symm

theorem ofNat_ne_neg_one (n : Nat) : Int.ofNat n ≠ -1 := by
  simp only [Int.ofNat_eq_natCast]
  omega

theorem cdiv_ofNat (m n : Nat) : cdiv (Int.ofNat m) (Int.ofNat n) =
    Int.ofNat (m / n) := rfl

theorem cdiv_ofNat_two (m : Nat) : cdiv (Int.ofNat m) 2 =
    Int.ofNat (m / 2) := rfl

theorem ofNat_add (m n : Nat) : Int.ofNat m + Int.ofNat n =
    Int.ofNat (m + n) := by
  simp [Int.ofNat_eq_natCast]

/-- The state of the delay scanner after sweeping an oracle that fails on
`[0, a)`, passes on `[a, b]` with `a < b`, and fails at `b + 1`: the first
`b + 2` iterations leave `delay = (a + b) / 2` and either `broke` (when
`b - a` exceeds the threshold) or a cleared window. -/
theorem delayScan_single_run_state (r : Nat → Int) (a b : Nat)
    (hab : a < b)
    (hfa : ∀ i, i < a → r i ≠ 0)
    (hpass : ∀ i, a ≤ i → i ≤ b → r i = 0)
    (hfb : r (b + 1) ≠ 0) :
    (delayUpTo r (b + 2)).delay = Int.ofNat ((a + b) / 2) ∧
    ((delayUpTo r (b + 2)).broke = true ∨
      ((delayUpTo r (b + 2)).broke = false ∧
       (delayUpTo r (b + 2)).delay_min = -1 ∧
       (delayUpTo r (b + 2)).delay_max = -1)) := by
  have hsplit2 : List.range' 0 a ++ List.range' a (b + 1 - a) =
      List.range' 0 (b + 1) := by
    have h := List.range'_append 0 a (b + 1 - a) 1
    have h2 : b + 1 - a + a = b + 1 := by omega
    simpa [h2] using h
  have hsplit3 : List.range' 0 (b + 1) ++ [b + 1] = List.range' 0 (b + 2) := by
    have := List.range'_1_concat 0 (b + 1)
    simpa using this.symm
  have hdecomp : delayUpTo r (b + 2) =
      delayStep r
        (delayScan r (List.range' a (b + 1 - a))
          (delayScan r (List.range' 0 a) delayInit)) (b + 1) := by
    rw [delayUpTo, ← hsplit3, delayScan_append, ← hsplit2, delayScan_append]
    rfl
  have h1 := delayScan_fail_run r a 0 delayInit
    (fun i hi1 hi2 => hfa i (by omega)) rfl rfl
  obtain ⟨e1, e2, e3, e4, e5, _⟩ := h1
  have h2 := delayScan_pass_fromempty r (b + 1 - a) a
    (delayScan r (List.range' 0 a) delayInit) (by omega)
    (fun i hi1 hi2 => hpass i hi1 (by omega)) e5 e2
  obtain ⟨f1, f2, f3, f4, f5, f6⟩ := h2
  have hn1 : ¬ (b + 1 - a = 1) := by omega
  rw [if_neg hn1] at f5
  have harith : a + (b + 1 - a) - 1 = b := by omega
  rw [harith] at f5
  have hmin : (delayScan r (List.range' a (b + 1 - a))
      (delayScan r (List.range' 0 a) delayInit)).delay_min = Int.ofNat a := f2
  have hmax : (delayScan r (List.range' a (b + 1 - a))
      (delayScan r (List.range' 0 a) delayInit)).delay_max = Int.ofNat b := f5
  have hdel : (delayScan r (List.range' a (b + 1 - a))
      (delayScan r (List.range' 0 a) delayInit)).delay = -1 := by
    rw [f1, e1]
    rfl
  have hrange : (delayScan r (List.range' a (b + 1 - a))
      (delayScan r (List.range' 0 a) delayInit)).delay_range = -1 := by
    rw [f3, e4]
    rfl
  have hgt : (delayScan r (List.range' a (b + 1 - a))
      (delayScan r (List.range' 0 a) delayInit)).delay_max -
      (delayScan r (List.range' a (b + 1 - a))
        (delayScan r (List.range' 0 a) delayInit)).delay_min >
      (delayScan r (List.range' a (b + 1 - a))
        (delayScan r (List.range' 0 a) delayInit)).delay_range := by
    rw [hmin, hmax, hrange]
    simp only [Int.ofNat_eq_natCast]
    omega
  have hclose := delayStep_fail_close r _ (b + 1) hfb f4
    (by rw [hmin]; exact ofNat_ne_neg_one a)
    (by rw [hmax]; exact ofNat_ne_neg_one b) hgt
  rw [hdecomp, hclose]
  by_cases hth : (delayScan r (List.range' a (b + 1 - a))
      (delayScan r (List.range' 0 a) delayInit)).delay_max -
      (delayScan r (List.range' a (b + 1 - a))
        (delayScan r (List.range' 0 a) delayInit)).delay_min >
      DELAY_RANGE_THRESHOLD
  · rw [if_pos hth]
    refine ⟨?_, Or.inl rfl⟩
    try dsimp only
    rw [hmin, hmax, ofNat_add, cdiv_ofNat_two]
  · rw [if_neg hth]
    refine ⟨?_, Or.inr ⟨f4, rfl, rfl⟩⟩
    try dsimp only
    rw [hmin, hmax, ofNat_add, cdiv_ofNat_two]

/-- C1 (amended): for every oracle under which exactly one contiguous run
`[a, b]` of delay codes passes within `[0, PHY_DELAY_CODE_MAX]` and every
other code fails, **provided the run has at least two codes (`a < b`) and is
closed by a failing probe inside the range (`b < PHY_DELAY_CODE_MAX`)**, the
delay-code scanner commits `floor((a + b) / 2)` and reports success.  (The
original claim, without the two provisos, is refuted by
`claim_C1_counterexample`: a single-code run is never recorded because
`delay_max` keeps its `-1` sentinel, and a run touching the end of the range
is never closed.) -/
theorem claim_C1_amended (r : Nat → Int) (maxCode a b : Nat) (fallback : Int)
    (hab : a < b) (hbm : b < maxCode)
    (hr : ∀ i, i ≤ maxCode → (r i = 0 ↔ (a ≤ i ∧ i ≤ b))) :
    (eswin_sdhci_sdio_delay_tuning r maxCode fallback).ret = 0 ∧
    (eswin_sdhci_sdio_delay_tuning r maxCode fallback).committed =
      Int.ofNat ((a + b) / 2) := by
  have hfa : ∀ i, i < a → r i ≠ 0 := fun i hi => by
    intro hx
    have := (hr i (by omega)).mp hx
    omega
  have hpass : ∀ i, a ≤ i → i ≤ b → r i = 0 := fun i h1 h2 =>
    (hr i (by omega)).mpr ⟨h1, h2⟩
  have hfb : r (b + 1) ≠ 0 := by
    intro hx
    have := (hr (b + 1) (by omega)).mp hx
    omega
  obtain ⟨hdel, hcase⟩ := delayScan_single_run_state r a b hab hfa hpass hfb
  have hsplit : List.range' 0 (b + 2) ++ List.range' (b + 2) (maxCode - b - 1) =
      List.range' 0 (maxCode + 1) := by
    have h := List.range'_append 0 (b + 2) (maxCode - b - 1) 1
    have h2 : maxCode - b - 1 + (b + 2) = maxCode + 1 := by omega
    simpa [h2] using h
  have hfull : delayScan r (List.range' 0 (maxCode + 1)) delayInit =
      delayScan r (List.range' (b + 2) (maxCode - b - 1))
        (delayUpTo r (b + 2)) := by
    rw [← hsplit, delayScan_append, delayUpTo]
  have hfinal_delay :
      (delayScan r (List.range' 0 (maxCode + 1)) delayInit).delay =
      Int.ofNat ((a + b) / 2) := by
    rw [hfull]
    rcases hcase with hbk | ⟨hb0, hm0, hM0⟩
    · rw [delayScan_broke r _ _ hbk]
      exact hdel
    · have := delayScan_fail_run r (maxCode - b - 1) (b + 2)
        (delayUpTo r (b + 2))
        (fun i h1 h2 => by
          intro hx
          have := (hr i (by omega)).mp hx
          omega) hb0 hM0
      rw [this.1, hdel]
  have hne : (delayScan r (List.range' 0 (maxCode + 1)) delayInit).delay ≠ -1 := by
    rw [hfinal_delay]
    exact ofNat_ne_neg_one _
  constructor
  · simp only [eswin_sdhci_sdio_delay_tuning]
    rw [if_neg hne]
  · simp only [eswin_sdhci_sdio_delay_tuning]
    rw [if_neg hne]
    exact hfinal_delay

/-- C1 is refuted as stated: under the oracle whose only passing run is the
single-code run `[2, 2]` inside `[0, 5]`, the claim predicts that the delay
scanner commits `floor((2 + 2) / 2) = 2` and reports success, but the code
never records the window (a one-code run leaves `delay_max = -1`), restores
the fallback code and returns the failing probe status. -/
theorem claim_C1_counterexample :
    (∀ i, i < 6 → (oraRun 2 2 i = 0 ↔ (2 ≤ i ∧ i ≤ 2))) ∧
    ¬ ((eswin_sdhci_sdio_delay_tuning (oraRun 2 2) 5 0).ret = 0 ∧
       (eswin_sdhci_sdio_delay_tuning (oraRun 2 2) 5 0).committed =
         Int.ofNat ((2 + 2) / 2)) := by
  constructor
  · decide
  · decide

/-- Witness: `claim_C1_amended` applied at the concrete oracle passing on
`[2, 6]` with `PHY_DELAY_CODE_MAX = 9`. -/
theorem claim_C1_witness :
    (eswin_sdhci_sdio_delay_tuning (oraRun 2 6) 9 7).ret = 0 ∧
    (eswin_sdhci_sdio_delay_tuning (oraRun 2 6) 9 7).committed =
      Int.ofNat ((2 + 6) / 2) :=
  claim_C1_amended (oraRun 2 6) 9 2 6 7 (by decide) (by decide) (by decide)

theorem delayStep_ret_cases (r : Nat → Int) (s : DelaySt) (i : Nat) :
    (delayStep r s i).ret = s.ret ∨ (delayStep r s i).ret = r i ∨
    (delayStep r s i).ret = 0 := by
  simp only [delayStep]
  split_ifs <;> simp

theorem delayScan_ret_nonpos (r : Nat → Int) (hr : ∀ i, r i ≤ 0) :
    ∀ (l : List Nat) (s : DelaySt), s.ret ≤ 0 → (delayScan r l s).ret ≤ 0 := by
  intro l
  induction l with
  | nil => intro s h; simpa [delayScan_nil] using h
  | cons i l ih =>
    intro s h
    rw [delayScan_cons]
    apply ih
    rcases delayStep_ret_cases r s i with e | e | e
    · rw [e]; exact h
    · rw [e]; exact hr i
    · simp [e]

theorem delay_tuning_ret_nonpos (r : Nat → Int) (maxCode : Nat) (fallback : Int)
    (hr : ∀ i, r i ≤ 0) :
    (eswin_sdhci_sdio_delay_tuning r maxCode fallback).ret ≤ 0 := by
  simp only [eswin_sdhci_sdio_delay_tuning]
  split_ifs with h
  · exact delayScan_ret_nonpos r hr _ delayInit (by simp [delayInit])
  · simp

theorem delay_tuning_no_phase_probes (r : Nat → Int) (maxCode : Nat)
    (fallback : Int) :
    probePhaseCodes (eswin_sdhci_sdio_delay_tuning r maxCode fallback).tr = [] := by
  obtain ⟨t, e, w, p, q⟩ := delayScan_tr r (List.range' 0 (maxCode + 1)) delayInit
  simp only [eswin_sdhci_sdio_delay_tuning]
  split_ifs with h <;>
  · try dsimp only
    rw [e, probePhaseCodes_append, probePhaseCodes_append, q]
    rfl

theorem phase_tuning_ret_cases (r : Nat → Int) (maxPhase : Nat) :
    (eswin_sdhci_sdio_phase_code_tuning r maxPhase).ret = -EIO_ERRNO ∨
    (eswin_sdhci_sdio_phase_code_tuning r maxPhase).ret = 0 := by
  simp only [eswin_sdhci_sdio_phase_code_tuning]
  split_ifs <;> simp

theorem phase_tuning_probes_head (r : Nat → Int) (maxPhase : Nat) :
    ∃ rest, probePhaseCodes
      (eswin_sdhci_sdio_phase_code_tuning r maxPhase).tr = 0 :: rest := by
  have hrange : List.range' 0 (maxPhase + 1) = 0 :: List.range' 1 maxPhase := by
    have := List.range'_succ 0 maxPhase 1
    simpa using this
  obtain ⟨t1, e1, w1, p1, q1⟩ := phaseStep_tr r phaseInit 0
  obtain ⟨t2, e2, w2, p2, q2⟩ :=
    phaseScan_tr r (List.range' 1 maxPhase) (phaseStep r phaseInit 0)
  have htr : (phaseScan r (List.range' 0 (maxPhase + 1)) phaseInit).tr =
      t1 ++ t2 := by
    rw [hrange, phaseScan_cons, e2, e1]
    rfl
  have hp1 : probePhaseCodes t1 = [0] := by
    rw [p1]
    rfl
  simp only [eswin_sdhci_sdio_phase_code_tuning]
  split_ifs with h <;>
    exact ⟨probePhaseCodes t2,
      by simp [htr, probePhaseCodes_append, hp1, probePhaseCodes]⟩

/-- C6: under the all-fail oracle the delay scanner restores the configured
static fallback delay code and reports a nonzero (negative) status, and the
phase scanner programs phase code 0 and reports `-EIO`. -/
theorem claim_C6 (r : Nat → Int) (maxCode maxPhase : Nat) (fallback : Int)
    (hfail : ∀ i, r i < 0) :
    (eswin_sdhci_sdio_delay_tuning r maxCode fallback).committed = fallback ∧
    (eswin_sdhci_sdio_delay_tuning r maxCode fallback).ret < 0 ∧
    (eswin_sdhci_sdio_phase_code_tuning r maxPhase).ret = -EIO_ERRNO ∧
    (eswin_sdhci_sdio_phase_code_tuning r maxPhase).committed = 0 := by
  have h := delayScan_fail_run r (maxCode + 1) 0 delayInit
    (fun i _ _ => by have := hfail i; omega) rfl rfl
  obtain ⟨e1, e2, e3, e4, e5, e6⟩ := h
  have hdel : (delayScan r (List.range' 0 (maxCode + 1)) delayInit).delay = -1 := by
    rw [e1]
    rfl
  refine ⟨?_, ?_, ?_, ?_⟩
  · simp only [eswin_sdhci_sdio_delay_tuning]
    rw [if_pos hdel]
  · simp only [eswin_sdhci_sdio_delay_tuning]
    rw [if_pos hdel]
    show (delayScan r (List.range' 0 (maxCode + 1)) delayInit).ret < 0
    rw [e6, if_neg (by omega : ¬ (maxCode + 1 = 0))]
    exact hfail (0 + (maxCode + 1) - 1)
  · have hph := phaseScan_fail_run r (maxPhase + 1) 0 phaseInit
      (fun i _ _ => by have := hfail i; omega) rfl rfl
    obtain ⟨p1, p2, p3, p4⟩ := hph
    have hmin : (phaseScan r (List.range' 0 (maxPhase + 1)) phaseInit).code_min =
        -1 := by
      rw [p1]
      rfl
    simp only [eswin_sdhci_sdio_phase_code_tuning]
    rw [if_pos ⟨hmin, p2⟩]
  · have hph := phaseScan_fail_run r (maxPhase + 1) 0 phaseInit
      (fun i _ _ => by have := hfail i; omega) rfl rfl
    obtain ⟨p1, p2, p3, p4⟩ := hph
    have hmin : (phaseScan r (List.range' 0 (maxPhase + 1)) phaseInit).code_min =
        -1 := by
      rw [p1]
      rfl
    simp only [eswin_sdhci_sdio_phase_code_tuning]
    rw [if_pos ⟨hmin, p2⟩]

/-- Witness: `claim_C6` at the concrete all-fail oracle with
`PHY_DELAY_CODE_MAX = 3`, `MAX_PHASE_CODE = 3` and fallback code 7. -/
theorem claim_C6_witness :
    (eswin_sdhci_sdio_delay_tuning oraFail 3 7).committed = 7 ∧
    (eswin_sdhci_sdio_delay_tuning oraFail 3 7).ret < 0 ∧
    (eswin_sdhci_sdio_phase_code_tuning oraFail 3).ret = -EIO_ERRNO ∧
    (eswin_sdhci_sdio_phase_code_tuning oraFail 3).committed = 0 :=
  claim_C6 oraFail 3 3 7 (fun i => by simp only [oraFail]; decide)

/-- C5: if the delay scan returns a failure status (with software tuning
enabled), the phase scan is never invoked — the orchestrator's trace contains
zero phase probes — and the orchestrator returns the delay scan's status.
("The delay-code scan fails" is read as "the delay scan returns a nonzero
status": the scanner can also take its internal failure path yet return 0,
which is claim C10's subject.) -/
theorem claim_C5 (rd rp : Nat → Int) (cfg : SdioPrivate)
    (maxCode maxPhase : Nat) (fallback : Int)
    (hsw : cfg.enable_sw_tuning = true)
    (hor : ∀ i, rd i ≤ 0)
    (hfailst : (eswin_sdhci_sdio_delay_tuning rd maxCode fallback).ret ≠ 0) :
    probePhaseCodes (eswin_sdhci_sdio_executing_tuning rd rp cfg maxCode
      maxPhase fallback).tr = [] ∧
    (eswin_sdhci_sdio_executing_tuning rd rp cfg maxCode maxPhase fallback).ret =
      (eswin_sdhci_sdio_delay_tuning rd maxCode fallback).ret := by
  have hneg : (eswin_sdhci_sdio_delay_tuning rd maxCode fallback).ret < 0 :=
    lt_of_le_of_ne (delay_tuning_ret_nonpos rd maxCode fallback hor) hfailst
  simp only [eswin_sdhci_sdio_executing_tuning, hsw]
  rw [if_neg (by simp), if_pos hneg]
  refine ⟨?_, rfl⟩
  rw [probePhaseCodes_append, delay_tuning_no_phase_probes]
  rfl

/-- Witness: `claim_C5` at the all-fail delay oracle with
`PHY_DELAY_CODE_MAX = 3`, `MAX_PHASE_CODE = 3`. -/
theorem claim_C5_witness :
    probePhaseCodes (eswin_sdhci_sdio_executing_tuning oraFail (oraRun 1 2)
      { phase_code := -1, enable_sw_tuning := true } 3 3 7).tr = [] ∧
    (eswin_sdhci_sdio_executing_tuning oraFail (oraRun 1 2)
      { phase_code := -1, enable_sw_tuning := true } 3 3 7).ret =
      (eswin_sdhci_sdio_delay_tuning oraFail 3 7).ret :=
  claim_C5 oraFail (oraRun 1 2)
    { phase_code := -1, enable_sw_tuning := true } 3 3 7 rfl
    (fun i => by simp only [oraFail]; decide) (by decide)

/-- C10 (implicit delay run-to-end edge case): if the probe at
`PHY_DELAY_CODE_MAX` passes but no candidate window was ever recorded during
the sweep (`delay` still `-1` after the loop), the delay scanner restores the
configured fallback delay code — its failure path — yet returns status 0,
because it returns the last tuning command's result; the orchestrator
therefore proceeds to run phase tuning and returns the phase scan's status. -/
theorem claim_C10 (rd rp : Nat → Int) (cfg : SdioPrivate)
    (maxCode maxPhase : Nat) (fallback : Int)
    (hsw : cfg.enable_sw_tuning = true)
    (hlast : rd maxCode = 0)
    (hnone : (delayUpTo rd (maxCode + 1)).delay = -1) :
    (eswin_sdhci_sdio_delay_tuning rd maxCode fallback).ret = 0 ∧
    (eswin_sdhci_sdio_delay_tuning rd maxCode fallback).committed = fallback ∧
    (∃ rest, probePhaseCodes (eswin_sdhci_sdio_executing_tuning rd rp cfg
      maxCode maxPhase fallback).tr = 0 :: rest) ∧
    (eswin_sdhci_sdio_executing_tuning rd rp cfg maxCode maxPhase fallback).ret =
      (eswin_sdhci_sdio_phase_code_tuning rp maxPhase).ret := by
  have hinv := delayUpTo_inv rd (maxCode + 1)
  have hnb : (delayUpTo rd (maxCode + 1)).broke = false := by
    rcases Bool.eq_false_or_eq_true (delayUpTo rd (maxCode + 1)).broke with h | h
    · exact absurd hnone (hinv.2.2.2 h)
    · exact h
  have hnb' : (delayUpTo rd maxCode).broke = false := by
    by_contra hx
    have hxx : (delayUpTo rd maxCode).broke = true := by simpa using hx
    rw [delayUpTo_succ, delayStep_broke rd _ maxCode hxx] at hnb
    rw [hnb] at hxx
    simp at hxx
  have hret : (delayUpTo rd (maxCode + 1)).ret = 0 := by
    rw [delayUpTo_succ, delayStep_pass rd _ maxCode hlast hnb']
  have hnone2 : (delayScan rd (List.range' 0 (maxCode + 1)) delayInit).delay =
      -1 := hnone
  have hret0 : (eswin_sdhci_sdio_delay_tuning rd maxCode fallback).ret = 0 := by
    simp only [eswin_sdhci_sdio_delay_tuning]
    rw [if_pos hnone2]
    exact hret
  have hcomm : (eswin_sdhci_sdio_delay_tuning rd maxCode fallback).committed =
      fallback := by
    simp only [eswin_sdhci_sdio_delay_tuning]
    rw [if_pos hnone2]
  have hnotlt : ¬ (eswin_sdhci_sdio_delay_tuning rd maxCode fallback).ret < 0 := by
    rw [hret0]
    omega
  refine ⟨hret0, hcomm, ?_, ?_⟩
  · simp only [eswin_sdhci_sdio_executing_tuning, hsw]
    rw [if_neg (by simp), if_neg hnotlt]
    obtain ⟨rest, hrest⟩ := phase_tuning_probes_head rp maxPhase
    rcases phase_tuning_ret_cases rp maxPhase with hp | hp
    · rw [if_pos (by rw [hp]; simp [EIO_ERRNO])]
      refine ⟨probePhaseCodes (eswin_sdhci_sdio_delay_tuning rd maxCode
        fallback).tr ++ rest, ?_⟩
      try dsimp only
      rw [probePhaseCodes_append, probePhaseCodes_append, hrest]
      simp [probePhaseCodes, delay_tuning_no_phase_probes]
    · rw [if_neg (by rw [hp]; omega)]
      refine ⟨probePhaseCodes (eswin_sdhci_sdio_delay_tuning rd maxCode
        fallback).tr ++ rest, ?_⟩
      try dsimp only
      rw [probePhaseCodes_append, probePhaseCodes_append, hrest]
      simp [probePhaseCodes, delay_tuning_no_phase_probes]
  · simp only [eswin_sdhci_sdio_executing_tuning, hsw]
    rw [if_neg (by simp), if_neg hnotlt]
    rcases phase_tuning_ret_cases rp maxPhase with hp | hp
    · rw [if_pos (by rw [hp]; simp [EIO_ERRNO])]
    · rw [if_neg (by rw [hp]; omega), hp]

/-- Witness: `claim_C10` at the all-pass delay oracle (the single passing run
reaches the end of the range and is never closed) with
`PHY_DELAY_CODE_MAX = 5`, `MAX_PHASE_CODE = 5`. -/
theorem claim_C10_witness :
    (eswin_sdhci_sdio_delay_tuning oraPass 5 7).ret = 0 ∧
    (eswin_sdhci_sdio_delay_tuning oraPass 5 7).committed = 7 ∧
    (∃ rest, probePhaseCodes (eswin_sdhci_sdio_executing_tuning oraPass
      (oraRun 2 4) { phase_code := -1, enable_sw_tuning := true } 5 5 7).tr =
      0 :: rest) ∧
    (eswin_sdhci_sdio_executing_tuning oraPass (oraRun 2 4)
      { phase_code := -1, enable_sw_tuning := true } 5 5 7).ret =
      (eswin_sdhci_sdio_phase_code_tuning (oraRun 2 4) 5).ret :=
  claim_C10 oraPass (oraRun 2 4)
    { phase_code := -1, enable_sw_tuning := true } 5 5 7 rfl (by decide)
    (by decide)

theorem wellBracketed_gated {l : List Event} (h : wellBracketed l = true) :
    gatedFrom true l = true := by
  unfold wellBracketed at h
  exact ((Bool.and_eq_true _ _).mp h).1

theorem delay_tuning_wellBracketed (r : Nat → Int) (maxCode : Nat)
    (fallback : Int) :
    wellBracketed (eswin_sdhci_sdio_delay_tuning r maxCode fallback).tr = true := by
  obtain ⟨t, e, w, p, q⟩ := delayScan_tr r (List.range' 0 (maxCode + 1)) delayInit
  have hscan : wellBracketed
      (delayScan r (List.range' 0 (maxCode + 1)) delayInit).tr = true := by
    rw [e]
    exact w
  simp only [eswin_sdhci_sdio_delay_tuning]
  split_ifs with h <;>
  · try dsimp only
    exact wellBracketed_append hscan
      (by simp [wellBracketed, gatedFrom, finalClk, clkNext, isTuningWrite,
                isEnableClk])

theorem phase_tuning_wellBracketed (r : Nat → Int) (maxPhase : Nat) :
    wellBracketed (eswin_sdhci_sdio_phase_code_tuning r maxPhase).tr = true := by
  obtain ⟨t, e, w, p, q⟩ := phaseScan_tr r (List.range' 0 (maxPhase + 1)) phaseInit
  have hscan : wellBracketed
      (phaseScan r (List.range' 0 (maxPhase + 1)) phaseInit).tr = true := by
    rw [e]
    exact w
  simp only [eswin_sdhci_sdio_phase_code_tuning]
  split_ifs with h <;>
  · try dsimp only
    exact wellBracketed_append hscan
      (by simp [wellBracketed, gatedFrom, finalClk, clkNext, isTuningWrite,
                isEnableClk])

/-- C8 (clock-gating discipline): in every execution of the tuning
orchestrator — both the STATIC path and the AUTO path, including both
scanners and the final commits — every write to a tuning register (the
delay-line registers `PHY_SDCLKDL_CNFG_R`/`PHY_SDCLKDL_DC_R`, modelled by
`configPhyDelay`, and the phase register `VENDOR_AT_SATA_R`, modelled by
`writePhase`) happens while the card clock is disabled (it is preceded by a
disable-card-clock call with no enable in between) and an enable-card-clock
call follows it. -/
theorem claim_C8 (rd rp : Nat → Int) (cfg : SdioPrivate)
    (maxCode maxPhase : Nat) (fallback : Int) :
    gatedFrom true (eswin_sdhci_sdio_executing_tuning rd rp cfg maxCode
      maxPhase fallback).tr = true := by
  have hd := delay_tuning_wellBracketed rd maxCode fallback
  have hp := phase_tuning_wellBracketed rp maxPhase
  have hpre : wellBracketed [Event.disableClk, Event.writeCtrl, Event.writeCtrl,
      Event.writePhase 0, Event.enableClk, Event.writeCmdData] = true := by
    simp [wellBracketed, gatedFrom, finalClk, clkNext, isTuningWrite,
          isEnableClk]
  simp only [eswin_sdhci_sdio_executing_tuning]
  split_ifs with h1 h2 h3 h4 <;>
    first
      | exact wellBracketed_gated (wellBracketed_append hpre hd)
      | exact wellBracketed_gated
          (wellBracketed_append (wellBracketed_append hpre hd) hp)
      | simp [gatedFrom, clkNext, isTuningWrite, isEnableClk]

/-- C4 is refuted as stated: under the oracle passing exactly at delay codes
1 and 3 (`PHY_DELAY_CODE_MAX = 4`), after the failing probe at code 2 the
scanner's `delay_min` is still 1 — a partial window (min set, max unset) is
NOT discarded — and the scanner goes on to commit delay code 2, the midpoint
of the "window" `[1, 3]`, which spans the failing code 2, returning success. -/
theorem claim_C4_counterexample :
    (delayUpTo (oraTwoRuns 1 1 3 3) 3).delay_min = 1 ∧
    oraTwoRuns 1 1 3 3 2 ≠ 0 ∧
    (eswin_sdhci_sdio_delay_tuning (oraTwoRuns 1 1 3 3) 4 0).committed = 2 ∧
    (eswin_sdhci_sdio_delay_tuning (oraTwoRuns 1 1 3 3) 4 0).ret = 0 := by
  refine ⟨?_, ?_, ?_, ?_⟩ <;> decide

/-- C4 (amended): when a tuning command fails at a probe point, the window is
reset only if it is fully bounded: if both `min` and `max` are set, the delay
scanner either stops (threshold break) or clears both to the sentinel, and
the phase scanner stops scanning; but a partial window (min set, max unset)
is NOT discarded — both scanners keep `min` across the failing probe, so a
window committed later may span failing codes
(`claim_C4_counterexample`). -/
theorem claim_C4_amended (r : Nat → Int) (i : Nat) (s : DelaySt) (p : PhaseSt)
    (hf : r i ≠ 0) (hbs : s.broke = false) (hbp : p.broke = false) :
    ((s.delay_min ≠ -1 ∧ s.delay_max ≠ -1) →
      ((delayStep r s i).broke = true ∨
       ((delayStep r s i).delay_min = -1 ∧ (delayStep r s i).delay_max = -1))) ∧
    (s.delay_max = -1 →
      ((delayStep r s i).delay_min = s.delay_min ∧
       (delayStep r s i).delay_max = -1)) ∧
    ((p.code_min ≠ -1 ∧ p.code_max ≠ -1) → (phaseStep r p i).broke = true) ∧
    (p.code_max = -1 →
      ((phaseStep r p i).code_min = p.code_min ∧
       (phaseStep r p i).code_max = -1)) := by
  refine ⟨?_, ?_, ?_, ?_⟩
  · intro hw
    by_cases hgt : s.delay_max - s.delay_min > s.delay_range
    · rw [delayStep_fail_close r s i hf hbs hw.1 hw.2 hgt]
      by_cases hth : s.delay_max - s.delay_min > DELAY_RANGE_THRESHOLD
      · rw [if_pos hth]
        exact Or.inl rfl
      · rw [if_neg hth]
        exact Or.inr ⟨rfl, rfl⟩
    · rw [delayStep_fail_stale r s i hf hbs hw.1 hw.2 hgt]
      exact Or.inr ⟨rfl, rfl⟩
  · intro hM
    rw [delayStep_fail_nowin r s i hf hbs (Or.inr hM)]
    exact ⟨rfl, hM⟩
  · intro hw
    rw [phaseStep_fail_stop r p i hf hbp hw.1 hw.2]
  · intro hM
    rw [phaseStep_fail_nowin r p i hf hbp (Or.inr hM)]
    exact ⟨rfl, hM⟩

/-- Witness: `claim_C4_amended` applied at the failing probe at code 2 of the
`claim_C4_counterexample` oracle, starting from the state reached after
probing codes 0 and 1 (a partial window with `delay_min = 1`). -/
theorem claim_C4_witness :
    (delayStep (oraTwoRuns 1 1 3 3)
      (delayUpTo (oraTwoRuns 1 1 3 3) 2) 2).delay_min =
      (delayUpTo (oraTwoRuns 1 1 3 3) 2).delay_min ∧
    (delayStep (oraTwoRuns 1 1 3 3)
      (delayUpTo (oraTwoRuns 1 1 3 3) 2) 2).delay_max = -1 :=
  (claim_C4_amended (oraTwoRuns 1 1 3 3) 2 (delayUpTo (oraTwoRuns 1 1 3 3) 2)
    phaseInit (by decide) (by decide) rfl).2.1 (by decide)

/-- C2 (phase-scanner first-complete-window policy and termination): for
every oracle, (i) if at some phase code `j ≤ MAX_PHASE_CODE` the scan has not
already stopped, the probe at `j` fails, and both `code_min` and `code_max`
are set, then the scanner stops there — it probes exactly codes `0..j` — and
commits `floor((code_min + code_max) / 2)` of that window, reporting success;
(ii) if the loop completes with `code_min == -1` and `code_max == -1` it
programs phase code 0 and reports `-EIO`; (iii) with `MAX_PHASE_CODE = 5`
and an oracle passing exactly on phases 2, 3, 4, it probes 0,1,2,3,4,5 and
commits 3. -/
theorem claim_C2 (r : Nat → Int) (maxPhase : Nat) :
    (∀ j, j ≤ maxPhase → (phaseUpTo r j).broke = false → r j ≠ 0 →
      (phaseUpTo r j).code_min ≠ -1 → (phaseUpTo r j).code_max ≠ -1 →
      (eswin_sdhci_sdio_phase_code_tuning r maxPhase).ret = 0 ∧
      (eswin_sdhci_sdio_phase_code_tuning r maxPhase).committed =
        cdiv ((phaseUpTo r j).code_min + (phaseUpTo r j).code_max) 2 ∧
      probePhaseCodes (eswin_sdhci_sdio_phase_code_tuning r maxPhase).tr =
        List.range' 0 (j + 1)) ∧
    ((phaseUpTo r (maxPhase + 1)).code_min = -1 →
      (phaseUpTo r (maxPhase + 1)).code_max = -1 →
      (eswin_sdhci_sdio_phase_code_tuning r maxPhase).ret = -EIO_ERRNO ∧
      (eswin_sdhci_sdio_phase_code_tuning r maxPhase).committed = 0) ∧
    ((eswin_sdhci_sdio_phase_code_tuning (oraRun 2 4) 5).ret = 0 ∧
     (eswin_sdhci_sdio_phase_code_tuning (oraRun 2 4) 5).committed = 3 ∧
     probePhaseCodes (eswin_sdhci_sdio_phase_code_tuning (oraRun 2 4) 5).tr =
       [0, 1, 2, 3, 4, 5]) := by
  refine ⟨?_, ?_, ?_⟩
  · intro j hj hnb hf hm hM
    have hstep : phaseUpTo r (j + 1) =
        { phaseUpTo r j with
            ret := r j,
            tr := (phaseUpTo r j).tr ++ [Event.disableClk,
              Event.writePhase (Int.ofNat j), Event.enableClk,
              Event.probePhase j, Event.resetCmdData],
            broke := true } := by
      rw [phaseUpTo_succ]
      exact phaseStep_fail_stop r _ j hf hnb hm hM
    have hsplit : List.range' 0 (j + 1) ++ List.range' (j + 1) (maxPhase - j) =
        List.range' 0 (maxPhase + 1) := by
      have h := List.range'_append 0 (j + 1) (maxPhase - j) 1
      have h2 : maxPhase - j + (j + 1) = maxPhase + 1 := by omega
      simpa [h2] using h
    have hscan : phaseScan r (List.range' 0 (maxPhase + 1)) phaseInit =
        phaseUpTo r (j + 1) := by
      rw [← hsplit, phaseScan_append]
      exact phaseScan_broke r _ _
        (by show (phaseUpTo r (j + 1)).broke = true
            rw [hstep])
    have hFmin : (phaseScan r (List.range' 0 (maxPhase + 1))
        phaseInit).code_min = (phaseUpTo r j).code_min := by
      rw [hscan, hstep]
    have hFmax : (phaseScan r (List.range' 0 (maxPhase + 1))
        phaseInit).code_max = (phaseUpTo r j).code_max := by
      rw [hscan, hstep]
    have hcond : ¬ ((phaseScan r (List.range' 0 (maxPhase + 1))
        phaseInit).code_min = -1 ∧
        (phaseScan r (List.range' 0 (maxPhase + 1)) phaseInit).code_max = -1) := by
      intro hx
      rw [hFmin] at hx
      exact hm hx.1
    refine ⟨?_, ?_, ?_⟩
    · simp only [eswin_sdhci_sdio_phase_code_tuning]
      rw [if_neg hcond]
    · simp only [eswin_sdhci_sdio_phase_code_tuning]
      rw [if_neg hcond]
      try dsimp only
      rw [hFmin, hFmax]
    · simp only [eswin_sdhci_sdio_phase_code_tuning]
      rw [if_neg hcond]
      try dsimp only
      rw [probePhaseCodes_append]
      have hptr : probePhaseCodes (phaseScan r (List.range' 0 (maxPhase + 1))
          phaseInit).tr = List.range' 0 (j + 1) := by
        rw [hscan, hstep]
        try dsimp only
        rw [probePhaseCodes_append, phaseUpTo_probes r j hnb]
        have hch : probePhaseCodes [Event.disableClk,
            Event.writePhase (Int.ofNat j), Event.enableClk,
            Event.probePhase j, Event.resetCmdData] = [j] := rfl
        rw [hch]
        have h2 := List.range'_1_concat 0 j
        simpa using h2.symm
      rw [hptr]
      simp [probePhaseCodes]
  · intro h1 h2
    have hcond : (phaseScan r (List.range' 0 (maxPhase + 1))
        phaseInit).code_min = -1 ∧
        (phaseScan r (List.range' 0 (maxPhase + 1)) phaseInit).code_max = -1 :=
      ⟨h1, h2⟩
    constructor <;>
    · simp only [eswin_sdhci_sdio_phase_code_tuning]
      rw [if_pos hcond]
  · refine ⟨?_, ?_, ?_⟩ <;> decide

/-- Witness: `claim_C2` part (i) applied at the scenario oracle (phases 2-4
pass, `MAX_PHASE_CODE = 5`) with the stopping probe `j = 5`. -/
theorem claim_C2_witness :
    (eswin_sdhci_sdio_phase_code_tuning (oraRun 2 4) 5).ret = 0 ∧
    (eswin_sdhci_sdio_phase_code_tuning (oraRun 2 4) 5).committed =
      cdiv ((phaseUpTo (oraRun 2 4) 5).code_min +
            (phaseUpTo (oraRun 2 4) 5).code_max) 2 ∧
    probePhaseCodes (eswin_sdhci_sdio_phase_code_tuning (oraRun 2 4) 5).tr =
      List.range' 0 6 :=
  (claim_C2 (oraRun 2 4) 5).1 5 (by decide) (by decide) (by decide) (by decide)
    (by decide)

/-- C9 is refuted as stated: the oracle passing exactly at phases 4 and 5
(`MAX_PHASE_CODE = 5`) satisfies the claim's hypothesis — at least one phase
passes and no failing probe ever observes both `code_min` and `code_max`
set — yet the loop ends with `code_max = 5`, not the `-1` sentinel, and the
scanner commits `(4 + 5) / 2 = 4`, not the sentinel-tainted value
`(4 + (-1)) / 2 = 1` the claim predicts. -/
theorem claim_C9_counterexample :
    oraRun 4 5 4 = 0 ∧
    (∀ j, j < 6 → ¬(oraRun 4 5 j ≠ 0 ∧
      (phaseUpTo (oraRun 4 5) j).code_min ≠ -1 ∧
      (phaseUpTo (oraRun 4 5) j).code_max ≠ -1)) ∧
    (phaseUpTo (oraRun 4 5) 6).code_max = 5 ∧
    (eswin_sdhci_sdio_phase_code_tuning (oraRun 4 5) 5).committed = 4 ∧
    (eswin_sdhci_sdio_phase_code_tuning (oraRun 4 5) 5).committed ≠
      cdiv ((phaseUpTo (oraRun 4 5) 6).code_min + (-1)) 2 := by
  refine ⟨?_, ?_, ?_, ?_, ?_⟩ <;> decide

/-- C9 (amended): for every oracle under which exactly one phase code `p`
passes (so `code_max` keeps the `-1` sentinel through the whole loop), the
phase scanner still reports success and commits
`(code_min + code_max) / 2 = (p + (-1)) / 2` computed with the sentinel,
i.e. `(p - 1) / 2` under C's truncating division.  For `p ≥ 1` this is a
phase code at which no tuning command was observed to pass; for `p = 0` it
programs 0 — which is `p` itself, a code that passed. -/
theorem claim_C9_amended (r : Nat → Int) (maxPhase p : Nat)
    (hp : p ≤ maxPhase)
    (hr : ∀ i, i ≤ maxPhase → (r i = 0 ↔ i = p)) :
    (eswin_sdhci_sdio_phase_code_tuning r maxPhase).ret = 0 ∧
    (eswin_sdhci_sdio_phase_code_tuning r maxPhase).committed =
      cdiv (Int.ofNat p + (-1)) 2 ∧
    (1 ≤ p → (eswin_sdhci_sdio_phase_code_tuning r maxPhase).committed =
      Int.ofNat ((p - 1) / 2) ∧ r ((p - 1) / 2) ≠ 0) ∧
    (p = 0 → (eswin_sdhci_sdio_phase_code_tuning r maxPhase).committed = 0 ∧
      r 0 = 0) := by
  have hfa : ∀ i, i < p → r i ≠ 0 := fun i hi => by
    intro hx
    have := (hr i (by omega)).mp hx
    omega
  have hfb : ∀ i, p < i → i ≤ maxPhase → r i ≠ 0 := fun i h1 h2 => by
    intro hx
    have := (hr i h2).mp hx
    omega
  have hpass : r p = 0 := (hr p hp).mpr rfl
  have hsplit2 : List.range' 0 p ++ [p] = List.range' 0 (p + 1) := by
    have := List.range'_1_concat 0 p
    simpa using this.symm
  have hsplit1 : List.range' 0 (p + 1) ++ List.range' (p + 1) (maxPhase - p) =
      List.range' 0 (maxPhase + 1) := by
    have h := List.range'_append 0 (p + 1) (maxPhase - p) 1
    have h2 : maxPhase - p + (p + 1) = maxPhase + 1 := by omega
    simpa [h2] using h
  have h1 := phaseScan_fail_run r p 0 phaseInit
    (fun i u v => hfa i (by omega)) rfl rfl
  obtain ⟨e1, e2, e3, _⟩ := h1
  have hm1 : (phaseScan r (List.range' 0 p) phaseInit).code_min = -1 := by
    rw [e1]
    rfl
  have hstep := phaseStep_pass r (phaseScan r (List.range' 0 p) phaseInit) p
    hpass e3
  have hsm : (phaseStep r (phaseScan r (List.range' 0 p) phaseInit) p).code_min =
      Int.ofNat p := by
    rw [hstep]
    simp [hm1]
  have hsM : (phaseStep r (phaseScan r (List.range' 0 p) phaseInit) p).code_max =
      -1 := by
    rw [hstep]
    simp [hm1, e2]
  have hsb : (phaseStep r (phaseScan r (List.range' 0 p) phaseInit) p).broke =
      false := by
    rw [hstep]
    exact e3
  have h2 := phaseScan_fail_run r (maxPhase - p) (p + 1)
    (phaseStep r (phaseScan r (List.range' 0 p) phaseInit) p)
    (fun i u v => hfb i (by omega) (by omega)) hsb hsM
  obtain ⟨f1, f2, f3, _⟩ := h2
  have hscan : phaseScan r (List.range' 0 (maxPhase + 1)) phaseInit =
      phaseScan r (List.range' (p + 1) (maxPhase - p))
        (phaseStep r (phaseScan r (List.range' 0 p) phaseInit) p) := by
    rw [← hsplit1, phaseScan_append, ← hsplit2, phaseScan_append]
    rfl
  have hfmin : (phaseScan r (List.range' 0 (maxPhase + 1)) phaseInit).code_min =
      Int.ofNat p := by
    rw [hscan, f1, hsm]
  have hfmax : (phaseScan r (List.range' 0 (maxPhase + 1)) phaseInit).code_max =
      -1 := by
    rw [hscan]
    exact f2
  have hcond : ¬ ((phaseScan r (List.range' 0 (maxPhase + 1))
      phaseInit).code_min = -1 ∧
      (phaseScan r (List.range' 0 (maxPhase + 1)) phaseInit).code_max = -1) := by
    intro hx
    rw [hfmin] at hx
    exact ofNat_ne_neg_one p hx.1
  have hret : (eswin_sdhci_sdio_phase_code_tuning r maxPhase).ret = 0 := by
    simp only [eswin_sdhci_sdio_phase_code_tuning]
    rw [if_neg hcond]
  have hcomm : (eswin_sdhci_sdio_phase_code_tuning r maxPhase).committed =
      cdiv (Int.ofNat p + (-1)) 2 := by
    simp only [eswin_sdhci_sdio_phase_code_tuning]
    rw [if_neg hcond]
    try dsimp only
    rw [hfmin, hfmax]
  refine ⟨hret, hcomm, ?_, ?_⟩
  · intro hp1
    have hcast : Int.ofNat p + (-1) = Int.ofNat (p - 1) := by
      simp only [Int.ofNat_eq_natCast]
      omega
    refine ⟨by rw [hcomm, hcast, cdiv_ofNat_two], ?_⟩
    intro hx
    have := (hr ((p - 1) / 2) (by omega)).mp hx
    omega
  · intro hp0
    subst hp0
    refine ⟨by rw [hcomm]; decide, hpass⟩

/-- Witness: `claim_C9_amended` at the oracle whose only passing phase code
is 4, with `MAX_PHASE_CODE = 7`: the scanner commits `(4 - 1) / 2 = 1`, a
failing code. -/
theorem claim_C9_witness :
    (eswin_sdhci_sdio_phase_code_tuning (oraRun 4 4) 7).ret = 0 ∧
    (eswin_sdhci_sdio_phase_code_tuning (oraRun 4 4) 7).committed =
      cdiv (Int.ofNat 4 + (-1)) 2 ∧
    (1 ≤ 4 → (eswin_sdhci_sdio_phase_code_tuning (oraRun 4 4) 7).committed =
      Int.ofNat ((4 - 1) / 2) ∧ oraRun 4 4 ((4 - 1) / 2) ≠ 0) ∧
    (4 = 0 → (eswin_sdhci_sdio_phase_code_tuning (oraRun 4 4) 7).committed = 0 ∧
      oraRun 4 4 0 = 0) :=
  claim_C9_amended (oraRun 4 4) 7 4 (by decide) (by decide)

/-- If the delay scanner reaches the failing probe that closes a passing run
`[a, b]` of width `> 20` without having already stopped, it records the run
and leaves the loop there (`break`): after `b + 2` iterations the scan has
stopped, whatever the oracle did before code `a`. -/
theorem delayScan_wide_run_breaks (r : Nat → Int) (a b : Nat)
    (hab : a < b) (hwide : 20 < b - a)
    (hpass : ∀ i, i ≤ b → a ≤ i → r i = 0)
    (hfail : r (b + 1) ≠ 0) :
    (delayUpTo r (b + 2)).broke = true := by
  rcases Bool.eq_false_or_eq_true (delayUpTo r (b + 1)).broke with hB | hB
  case inl =>
    rw [delayUpTo_succ, delayStep_broke r _ (b + 1) hB]
    exact hB
  case inr =>
    have hsplit : List.range' 0 a ++ List.range' a (b + 1 - a) =
        List.range' 0 (b + 1) := by
      have h := List.range'_append 0 a (b + 1 - a) 1
      have h2 : b + 1 - a + a = b + 1 := by omega
      simpa [h2] using h
    have hpre : delayUpTo r (b + 1) =
        delayScan r (List.range' a (b + 1 - a)) (delayUpTo r a) := by
      rw [delayUpTo, ← hsplit, delayScan_append]
      rfl
    have hba : (delayUpTo r a).broke = false := by
      by_contra hx
      have hxx : (delayUpTo r a).broke = true := by simpa using hx
      rw [hpre, delayScan_broke r _ _ hxx] at hB
      rw [hB] at hxx
      simp at hxx
    have hinva := delayUpTo_inv r a
    have hpassrun : ∀ i, a ≤ i → i < a + (b + 1 - a) → r i = 0 :=
      fun i h1 h2 => hpass i (by omega) h1
    have hmain : ∃ m : Int, 0 ≤ m ∧ m ≤ Int.ofNat a ∧
        (delayUpTo r (b + 1)).delay_min = m ∧
        (delayUpTo r (b + 1)).delay_max = Int.ofNat b ∧
        (delayUpTo r (b + 1)).broke = false := by
      rcases hinva.1 with hm | hm
      · obtain ⟨g1, g2, g3, g4, g5, g6⟩ := delayScan_pass_fromempty r
          (b + 1 - a) a (delayUpTo r a) (by omega) hpassrun hba hm
        refine ⟨Int.ofNat a, ?_, le_rfl, ?_, ?_, ?_⟩
        · simp [Int.ofNat_eq_natCast]
        · rw [hpre]
          exact g2
        · rw [hpre, g5, if_neg (by omega : ¬ (b + 1 - a = 1))]
          congr 1
          omega
        · rw [hpre]
          exact g4
      · obtain ⟨g1, g2, g3, g4, g5, g6⟩ := delayScan_pass_minset r
          (b + 1 - a) a (delayUpTo r a) hpassrun hba
          (by
            intro hx
            rw [hx] at hm
            simp only [Int.ofNat_eq_natCast] at hm
            omega)
        refine ⟨(delayUpTo r a).delay_min, hm.1, ?_, ?_, ?_, ?_⟩
        · have := hm.2
          simp only [Int.ofNat_eq_natCast] at this ⊢
          omega
        · rw [hpre]
          exact g2
        · rw [hpre, g5, if_neg (by omega : ¬ (b + 1 - a = 0))]
          congr 1
          omega
        · rw [hpre]
          exact g4
    obtain ⟨m, hm0, hma, hmin, hmax, hbk⟩ := hmain
    have hrange : (delayUpTo r (b + 1)).delay_range ≤ DELAY_RANGE_THRESHOLD :=
      (delayUpTo_inv r (b + 1)).2.2.1 hbk
    have hgt : (delayUpTo r (b + 1)).delay_max -
        (delayUpTo r (b + 1)).delay_min >
        (delayUpTo r (b + 1)).delay_range := by
      rw [hmin, hmax]
      unfold DELAY_RANGE_THRESHOLD at hrange
      simp only [Int.ofNat_eq_natCast] at hma ⊢
      omega
    have hclose := delayStep_fail_close r (delayUpTo r (b + 1)) (b + 1)
      hfail hbk (by rw [hmin]; omega) (by rw [hmax]; exact ofNat_ne_neg_one b)
      hgt
    have hth : (delayUpTo r (b + 1)).delay_max -
        (delayUpTo r (b + 1)).delay_min > DELAY_RANGE_THRESHOLD := by
      rw [hmin, hmax]
      unfold DELAY_RANGE_THRESHOLD
      simp only [Int.ofNat_eq_natCast] at hma ⊢
      omega
    rw [delayUpTo_succ, hclose, if_pos hth]

/-- C7 (early-exit threshold): for every oracle containing a contiguous
passing run `[a, b]` of width `b - a > 20` whose closing failure at `b + 1`
occurs within the range, the delay scanner stops scanning at (or before) that
closing failure: it issues no probe at any delay code beyond `b + 1`. -/
theorem claim_C7 (r : Nat → Int) (maxCode a b : Nat) (fallback : Int)
    (hab : a < b) (hwide : 20 < b - a) (hbm : b < maxCode)
    (hpass : ∀ i, i ≤ b → a ≤ i → r i = 0)
    (hfail : r (b + 1) ≠ 0) :
    ∀ c ∈ probeDelayCodes
      (eswin_sdhci_sdio_delay_tuning r maxCode fallback).tr, c ≤ b + 1 := by
  have hbroke := delayScan_wide_run_breaks r a b hab hwide hpass hfail
  have hsplit : List.range' 0 (b + 2) ++ List.range' (b + 2) (maxCode - b - 1) =
      List.range' 0 (maxCode + 1) := by
    have h := List.range'_append 0 (b + 2) (maxCode - b - 1) 1
    have h2 : maxCode - b - 1 + (b + 2) = maxCode + 1 := by omega
    simpa [h2] using h
  have hscan : delayScan r (List.range' 0 (maxCode + 1)) delayInit =
      delayUpTo r (b + 2) := by
    rw [← hsplit, delayScan_append]
    exact delayScan_broke r _ _ hbroke
  obtain ⟨t, e, w, p, q⟩ := delayScan_tr r (List.range' 0 (b + 2)) delayInit
  have hprobes : ∀ c ∈ probeDelayCodes (delayUpTo r (b + 2)).tr, c ≤ b + 1 := by
    intro c hc
    rw [delayUpTo] at hc
    rw [e] at hc
    have hc' : c ∈ probeDelayCodes t := by
      simpa [probeDelayCodes_append, probeDelayCodes, delayInit] using hc
    have := p c hc'
    have := List.mem_range'_1.mp this
    omega
  intro c hc
  simp only [eswin_sdhci_sdio_delay_tuning] at hc
  rw [hscan] at hc
  split_ifs at hc <;>
  · try dsimp only at hc
    rw [probeDelayCodes_append] at hc
    rcases List.mem_append.mp hc with h | h
    · exact hprobes c h
    · simp [probeDelayCodes] at h

/-- Witness: `claim_C7` at the oracle passing exactly on `[0, 21]`
(width 21 > 20) with `PHY_DELAY_CODE_MAX = 30`: every delay code probed is
at most 22. -/
theorem claim_C7_witness :
    ((probeDelayCodes (eswin_sdhci_sdio_delay_tuning (oraRun 0 21) 30 7).tr).all
      (fun c => decide (c ≤ 22))) = true := by
  have h := claim_C7 (oraRun 0 21) 30 0 21 7 (by decide) (by decide)
    (by decide) (by decide) (by decide)
  exact List.all_eq_true.mpr fun c hc => decide_eq_true (h c hc)

/-- Scanning a passing run `[a, b]` (at least two codes) plus its closing
failure at `b + 1`, from a clean window state whose best range so far is
smaller than the run's width: the run is recorded — `delay` becomes its
midpoint and `delay_range` its width — and the loop breaks iff the width
exceeds the threshold. -/
theorem delayScan_run_segment (r : Nat → Int) (a b : Nat) (s : DelaySt)
    (hab : a < b)
    (hpass : ∀ i, a ≤ i → i ≤ b → r i = 0)
    (hfb : r (b + 1) ≠ 0)
    (hbk : s.broke = false) (hm : s.delay_min = -1) (_hM : s.delay_max = -1)
    (hrange : s.delay_range < Int.ofNat b - Int.ofNat a) :
    (delayScan r (List.range' a (b + 2 - a)) s).delay =
      Int.ofNat ((a + b) / 2) ∧
    (delayScan r (List.range' a (b + 2 - a)) s).delay_range =
      Int.ofNat b - Int.ofNat a ∧
    (20 < b - a → (delayScan r (List.range' a (b + 2 - a)) s).broke = true) ∧
    (b - a ≤ 20 → ((delayScan r (List.range' a (b + 2 - a)) s).broke = false ∧
      (delayScan r (List.range' a (b + 2 - a)) s).delay_min = -1 ∧
      (delayScan r (List.range' a (b + 2 - a)) s).delay_max = -1)) := by
  have hsp : List.range' a (b + 2 - a) =
      List.range' a (b + 1 - a) ++ [b + 1] := by
    have h := List.range'_1_concat a (b + 1 - a)
    have h1 : a + (b + 1 - a) = b + 1 := by omega
    have h2 : b + 1 - a + 1 = b + 2 - a := by omega
    rw [h1, h2] at h
    exact h
  rw [hsp, delayScan_append]
  obtain ⟨g1, g2, g3, g4, g5, g6⟩ := delayScan_pass_fromempty r (b + 1 - a) a s
    (by omega) (fun i h1 h2 => hpass i h1 (by omega)) hbk hm
  rw [if_neg (by omega : ¬ (b + 1 - a = 1))] at g5
  have harith : a + (b + 1 - a) - 1 = b := by
    omega
  rw [harith] at g5
  have hgt : (delayScan r (List.range' a (b + 1 - a)) s).delay_max -
      (delayScan r (List.range' a (b + 1 - a)) s).delay_min >
      (delayScan r (List.range' a (b + 1 - a)) s).delay_range := by
    rw [g2, g5, g3]
    exact hrange
  have hclose := delayStep_fail_close r
    (delayScan r (List.range' a (b + 1 - a)) s) (b + 1) hfb g4
    (by rw [g2]; exact ofNat_ne_neg_one a)
    (by rw [g5]; exact ofNat_ne_neg_one b) hgt
  have hstep : delayScan r [b + 1]
      (delayScan r (List.range' a (b + 1 - a)) s) =
      delayStep r (delayScan r (List.range' a (b + 1 - a)) s) (b + 1) := rfl
  rw [hstep, hclose]
  have hthiff : ((delayScan r (List.range' a (b + 1 - a)) s).delay_max -
      (delayScan r (List.range' a (b + 1 - a)) s).delay_min >
      DELAY_RANGE_THRESHOLD) ↔ 20 < b - a := by
    rw [g2, g5]
    unfold DELAY_RANGE_THRESHOLD
    simp only [Int.ofNat_eq_natCast]
    omega
  by_cases hth : 20 < b - a
  · rw [if_pos (hthiff.mpr hth)]
    refine ⟨?_, ?_, fun _ => rfl, fun hc => absurd hth (by omega)⟩
    · try dsimp only
      rw [g2, g5, ofNat_add, cdiv_ofNat_two]
    · try dsimp only
      rw [g2, g5]
  · rw [if_neg (fun hc => hth (hthiff.mp hc))]
    refine ⟨?_, ?_, fun hc => absurd hc hth, fun _ => ⟨g4, rfl, rfl⟩⟩
    · try dsimp only
      rw [g2, g5, ofNat_add, cdiv_ofNat_two]
    · try dsimp only
      rw [g2, g5]

/-- Scanning a passing run `[a, b]` plus its closing failure at `b + 1`, from
a clean window state whose best range so far is at least the run's width: the
run does not displace the best candidate — `delay` and `delay_range` are
unchanged and the window is cleared. -/
theorem delayScan_run_segment_stale (r : Nat → Int) (a b : Nat) (s : DelaySt)
    (hab : a < b)
    (hpass : ∀ i, a ≤ i → i ≤ b → r i = 0)
    (hfb : r (b + 1) ≠ 0)
    (hbk : s.broke = false) (hm : s.delay_min = -1) (_hM : s.delay_max = -1)
    (hrange : Int.ofNat b - Int.ofNat a ≤ s.delay_range) :
    (delayScan r (List.range' a (b + 2 - a)) s).delay = s.delay ∧
    (delayScan r (List.range' a (b + 2 - a)) s).delay_range = s.delay_range ∧
    (delayScan r (List.range' a (b + 2 - a)) s).broke = false ∧
    (delayScan r (List.range' a (b + 2 - a)) s).delay_min = -1 ∧
    (delayScan r (List.range' a (b + 2 - a)) s).delay_max = -1 := by
  have hsp : List.range' a (b + 2 - a) =
      List.range' a (b + 1 - a) ++ [b + 1] := by
    have h := List.range'_1_concat a (b + 1 - a)
    have h1 : a + (b + 1 - a) = b + 1 := by omega
    have h2 : b + 1 - a + 1 = b + 2 - a := by omega
    rw [h1, h2] at h
    exact h
  rw [hsp, delayScan_append]
  obtain ⟨g1, g2, g3, g4, g5, g6⟩ := delayScan_pass_fromempty r (b + 1 - a) a s
    (by omega) (fun i h1 h2 => hpass i h1 (by omega)) hbk hm
  rw [if_neg (by omega : ¬ (b + 1 - a = 1))] at g5
  have harith : a + (b + 1 - a) - 1 = b := by
    omega
  rw [harith] at g5
  have hle : ¬ ((delayScan r (List.range' a (b + 1 - a)) s).delay_max -
      (delayScan r (List.range' a (b + 1 - a)) s).delay_min >
      (delayScan r (List.range' a (b + 1 - a)) s).delay_range) := by
    rw [g2, g5, g3]
    omega
  have hstale := delayStep_fail_stale r
    (delayScan r (List.range' a (b + 1 - a)) s) (b + 1) hfb g4
    (by rw [g2]; exact ofNat_ne_neg_one a)
    (by rw [g5]; exact ofNat_ne_neg_one b) hle
  have hstep : delayScan r [b + 1]
      (delayScan r (List.range' a (b + 1 - a)) s) =
      delayStep r (delayScan r (List.range' a (b + 1 - a)) s) (b + 1) := rfl
  rw [hstep, hstale]
  exact ⟨g1, g3, g4, rfl, rfl⟩

/-- C3 (amended): for every oracle whose passing delay codes form exactly two
disjoint, non-adjacent runs `[a1, b1]` (scanned first) and `[a2, b2]`
(scanned second), each with at least two codes, with distinct widths:
(i) if the second run is wider, the scanner commits the second run's midpoint
— never the first run's — **provided** the first run's width is at most the
early-exit threshold 20 and the second run ends before the range end;
(ii) if the first run is wider, the scanner always commits the first run's
midpoint, never the second's.  (The provisos in (i) are forced by
`claim_C3_counterexample`: a first run wider than 20 triggers the early exit
before the wider second run is ever probed, and a second run touching the
range end is never closed, so its candidate is never recorded.) -/
theorem claim_C3_amended (r : Nat → Int) (maxCode a1 b1 a2 b2 : Nat)
    (fallback : Int)
    (h11 : a1 < b1) (h12 : b1 + 1 < a2) (h22 : a2 < b2) (h2m : b2 ≤ maxCode)
    (hr : ∀ i, i ≤ maxCode →
      (r i = 0 ↔ ((a1 ≤ i ∧ i ≤ b1) ∨ (a2 ≤ i ∧ i ≤ b2)))) :
    (b1 - a1 < b2 - a2 → b1 - a1 ≤ 20 → b2 < maxCode →
      ((eswin_sdhci_sdio_delay_tuning r maxCode fallback).ret = 0 ∧
       (eswin_sdhci_sdio_delay_tuning r maxCode fallback).committed =
         Int.ofNat ((a2 + b2) / 2) ∧
       (eswin_sdhci_sdio_delay_tuning r maxCode fallback).committed ≠
         Int.ofNat ((a1 + b1) / 2))) ∧
    (b2 - a2 < b1 - a1 →
      ((eswin_sdhci_sdio_delay_tuning r maxCode fallback).ret = 0 ∧
       (eswin_sdhci_sdio_delay_tuning r maxCode fallback).committed =
         Int.ofNat ((a1 + b1) / 2) ∧
       (eswin_sdhci_sdio_delay_tuning r maxCode fallback).committed ≠
         Int.ofNat ((a2 + b2) / 2))) := by
  have hfa1 : ∀ i, i < a1 → r i ≠ 0 := fun i hi hx => by
    have := (hr i (by omega)).mp hx
    omega
  have hp1 : ∀ i, a1 ≤ i → i ≤ b1 → r i = 0 := fun i u v =>
    (hr i (by omega)).mpr (Or.inl ⟨u, v⟩)
  have hf1 : r (b1 + 1) ≠ 0 := fun hx => by
    have := (hr (b1 + 1) (by omega)).mp hx
    omega
  have hfD : ∀ i, b1 + 2 ≤ i → i < a2 → r i ≠ 0 := fun i u v hx => by
    have := (hr i (by omega)).mp hx
    omega
  have hp2 : ∀ i, a2 ≤ i → i ≤ b2 → r i = 0 := fun i u v =>
    (hr i (by omega)).mpr (Or.inr ⟨u, v⟩)
  have hA := delayScan_fail_run r a1 0 delayInit
    (fun i u v => hfa1 i (by omega)) rfl rfl
  obtain ⟨eA1, eA2, eA3, eA4, eA5, _⟩ := hA
  have hT1 := delayScan_run_segment r a1 b1
    (delayScan r (List.range' 0 a1) delayInit) h11 hp1 hf1 eA5
    (by rw [eA2]; rfl) eA3
    (by rw [eA4]
        show delayInit.delay_range < _
        simp only [delayInit, Int.ofNat_eq_natCast]
        omega)
  obtain ⟨t1d, t1r, t1bk, t1cl⟩ := hT1
  have ht1d : (delayScan r (List.range' a1 (b1 + 2 - a1))
      (delayScan r (List.range' 0 a1) delayInit)).delay =
      Int.ofNat ((a1 + b1) / 2) := t1d
  have hd1 : List.range' 0 a1 ++ List.range' a1 (b1 + 2 - a1) =
      List.range' 0 (b1 + 2) := by
    have h := List.range'_append 0 a1 (b1 + 2 - a1) 1
    have h2 : b1 + 2 - a1 + a1 = b1 + 2 := by omega
    simpa [h2] using h
  have hd2 : List.range' 0 (b1 + 2) ++ List.range' (b1 + 2) (a2 - b1 - 2) =
      List.range' 0 a2 := by
    have h := List.range'_append 0 (b1 + 2) (a2 - b1 - 2) 1
    have h2 : a2 - b1 - 2 + (b1 + 2) = a2 := by omega
    simpa [h2] using h
  have hd3 : List.range' 0 a2 ++ List.range' a2 (b2 + 2 - a2) =
      List.range' 0 (b2 + 2) := by
    have h := List.range'_append 0 a2 (b2 + 2 - a2) 1
    have h2 : b2 + 2 - a2 + a2 = b2 + 2 := by omega
    simpa [h2] using h
  have hmidne : Int.ofNat ((a2 + b2) / 2) ≠ Int.ofNat ((a1 + b1) / 2) := by
    simp only [Int.ofNat_eq_natCast, ne_eq, Nat.cast_inj]
    omega
  constructor
  · intro hw hth1 hbm
    have hf2 : r (b2 + 1) ≠ 0 := fun hx => by
      have := (hr (b2 + 1) (by omega)).mp hx
      omega
    obtain ⟨c1, c2, c3⟩ := t1cl (by omega)
    have hD := delayScan_fail_run r (a2 - b1 - 2) (b1 + 2)
      (delayScan r (List.range' a1 (b1 + 2 - a1))
        (delayScan r (List.range' 0 a1) delayInit))
      (fun i u v => hfD i (by omega) (by omega)) c1 c3
    obtain ⟨eD1, eD2, eD3, eD4, eD5, _⟩ := hD
    have hT2 := delayScan_run_segment r a2 b2
      (delayScan r (List.range' (b1 + 2) (a2 - b1 - 2))
        (delayScan r (List.range' a1 (b1 + 2 - a1))
          (delayScan r (List.range' 0 a1) delayInit))) h22 hp2 hf2 eD5
      (by rw [eD2, c2]) eD3
      (by rw [eD4, t1r]
          simp only [Int.ofNat_eq_natCast]
          omega)
    obtain ⟨t2d, t2r, t2bk, t2cl⟩ := hT2
    have hd4 : List.range' 0 (b2 + 2) ++
        List.range' (b2 + 2) (maxCode - b2 - 1) =
        List.range' 0 (maxCode + 1) := by
      have h := List.range'_append 0 (b2 + 2) (maxCode - b2 - 1) 1
      have h2 : maxCode - b2 - 1 + (b2 + 2) = maxCode + 1 := by omega
      simpa [h2] using h
    have hfull : delayScan r (List.range' 0 (maxCode + 1)) delayInit =
        delayScan r (List.range' (b2 + 2) (maxCode - b2 - 1))
          (delayScan r (List.range' a2 (b2 + 2 - a2))
            (delayScan r (List.range' (b1 + 2) (a2 - b1 - 2))
              (delayScan r (List.range' a1 (b1 + 2 - a1))
                (delayScan r (List.range' 0 a1) delayInit)))) := by
      rw [← hd4, delayScan_append, ← hd3, delayScan_append, ← hd2,
          delayScan_append, ← hd1, delayScan_append]
    have hfinal : (delayScan r (List.range' 0 (maxCode + 1)) delayInit).delay =
        Int.ofNat ((a2 + b2) / 2) := by
      rw [hfull]
      by_cases hth2 : 20 < b2 - a2
      · rw [delayScan_broke r _ _ (t2bk hth2)]
        exact t2d
      · obtain ⟨d1, d2, d3⟩ := t2cl (by omega)
        have hG := delayScan_fail_run r (maxCode - b2 - 1) (b2 + 2)
          (delayScan r (List.range' a2 (b2 + 2 - a2))
            (delayScan r (List.range' (b1 + 2) (a2 - b1 - 2))
              (delayScan r (List.range' a1 (b1 + 2 - a1))
                (delayScan r (List.range' 0 a1) delayInit))))
          (fun i u v hx => by
            have := (hr i (by omega)).mp hx
            omega) d1 d3
        rw [hG.1, t2d]
    have hne : (delayScan r (List.range' 0 (maxCode + 1)) delayInit).delay ≠
        -1 := by
      rw [hfinal]
      exact ofNat_ne_neg_one _
    refine ⟨?_, ?_, ?_⟩
    · simp only [eswin_sdhci_sdio_delay_tuning]
      rw [if_neg hne]
    · simp only [eswin_sdhci_sdio_delay_tuning]
      rw [if_neg hne]
      exact hfinal
    · simp only [eswin_sdhci_sdio_delay_tuning]
      rw [if_neg hne]
      try dsimp only
      rw [hfinal]
      exact hmidne
  · intro hw
    by_cases hth1 : 20 < b1 - a1
    · have hbk1 := t1bk hth1
      have hd5 : List.range' 0 (b1 + 2) ++
          List.range' (b1 + 2) (maxCode - b1 - 1) =
          List.range' 0 (maxCode + 1) := by
        have h := List.range'_append 0 (b1 + 2) (maxCode - b1 - 1) 1
        have h2 : maxCode - b1 - 1 + (b1 + 2) = maxCode + 1 := by omega
        simpa [h2] using h
      have hfull : delayScan r (List.range' 0 (maxCode + 1)) delayInit =
          delayScan r (List.range' (b1 + 2) (maxCode - b1 - 1))
            (delayScan r (List.range' a1 (b1 + 2 - a1))
              (delayScan r (List.range' 0 a1) delayInit)) := by
        rw [← hd5, delayScan_append, ← hd1, delayScan_append]
      have hfinal : (delayScan r (List.range' 0 (maxCode + 1))
          delayInit).delay = Int.ofNat ((a1 + b1) / 2) := by
        rw [hfull, delayScan_broke r _ _ hbk1]
        exact ht1d
      have hne : (delayScan r (List.range' 0 (maxCode + 1)) delayInit).delay ≠
          -1 := by
        rw [hfinal]
        exact ofNat_ne_neg_one _
      refine ⟨?_, ?_, ?_⟩
      · simp only [eswin_sdhci_sdio_delay_tuning]
        rw [if_neg hne]
      · simp only [eswin_sdhci_sdio_delay_tuning]
        rw [if_neg hne]
        exact hfinal
      · simp only [eswin_sdhci_sdio_delay_tuning]
        rw [if_neg hne]
        try dsimp only
        rw [hfinal]
        exact fun hx => hmidne hx.symm
    · obtain ⟨c1, c2, c3⟩ := t1cl (by omega)
      have hD := delayScan_fail_run r (a2 - b1 - 2) (b1 + 2)
        (delayScan r (List.range' a1 (b1 + 2 - a1))
          (delayScan r (List.range' 0 a1) delayInit))
        (fun i u v => hfD i (by omega) (by omega)) c1 c3
      obtain ⟨eD1, eD2, eD3, eD4, eD5, _⟩ := hD
      have hfinal : (delayScan r (List.range' 0 (maxCode + 1))
          delayInit).delay = Int.ofNat ((a1 + b1) / 2) := by
        by_cases hbm : b2 < maxCode
        · have hf2 : r (b2 + 1) ≠ 0 := fun hx => by
            have := (hr (b2 + 1) (by omega)).mp hx
            omega
          have hT2 := delayScan_run_segment_stale r a2 b2
            (delayScan r (List.range' (b1 + 2) (a2 - b1 - 2))
              (delayScan r (List.range' a1 (b1 + 2 - a1))
                (delayScan r (List.range' 0 a1) delayInit))) h22 hp2 hf2 eD5
            (by rw [eD2, c2]) eD3
            (by rw [eD4, t1r]
                simp only [Int.ofNat_eq_natCast]
                omega)
          obtain ⟨d1, d2, d3, d4, d5⟩ := hT2
          have hd4 : List.range' 0 (b2 + 2) ++
              List.range' (b2 + 2) (maxCode - b2 - 1) =
              List.range' 0 (maxCode + 1) := by
            have h := List.range'_append 0 (b2 + 2) (maxCode - b2 - 1) 1
            have h2 : maxCode - b2 - 1 + (b2 + 2) = maxCode + 1 := by omega
            simpa [h2] using h
          have hfull : delayScan r (List.range' 0 (maxCode + 1)) delayInit =
              delayScan r (List.range' (b2 + 2) (maxCode - b2 - 1))
                (delayScan r (List.range' a2 (b2 + 2 - a2))
                  (delayScan r (List.range' (b1 + 2) (a2 - b1 - 2))
                    (delayScan r (List.range' a1 (b1 + 2 - a1))
                      (delayScan r (List.range' 0 a1) delayInit)))) := by
            rw [← hd4, delayScan_append, ← hd3, delayScan_append, ← hd2,
                delayScan_append, ← hd1, delayScan_append]
          have hG := delayScan_fail_run r (maxCode - b2 - 1) (b2 + 2)
            (delayScan r (List.range' a2 (b2 + 2 - a2))
              (delayScan r (List.range' (b1 + 2) (a2 - b1 - 2))
                (delayScan r (List.range' a1 (b1 + 2 - a1))
                  (delayScan r (List.range' 0 a1) delayInit))))
            (fun i u v hx => by
              have := (hr i (by omega)).mp hx
              omega) d3 d5
          rw [hfull, hG.1, d1, eD1, ht1d]
        · have hd6 : List.range' 0 a2 ++ List.range' a2 (b2 + 1 - a2) =
              List.range' 0 (maxCode + 1) := by
            have h := List.range'_append 0 a2 (b2 + 1 - a2) 1
            have h2 : b2 + 1 - a2 + a2 = maxCode + 1 := by omega
            simpa [h2] using h
          have hfull : delayScan r (List.range' 0 (maxCode + 1)) delayInit =
              delayScan r (List.range' a2 (b2 + 1 - a2))
                (delayScan r (List.range' (b1 + 2) (a2 - b1 - 2))
                  (delayScan r (List.range' a1 (b1 + 2 - a1))
                    (delayScan r (List.range' 0 a1) delayInit))) := by
            rw [← hd6, delayScan_append, ← hd2, delayScan_append, ← hd1,
                delayScan_append]
          have hE := delayScan_pass_fromempty r (b2 + 1 - a2) a2
            (delayScan r (List.range' (b1 + 2) (a2 - b1 - 2))
              (delayScan r (List.range' a1 (b1 + 2 - a1))
                (delayScan r (List.range' 0 a1) delayInit)))
            (by omega) (fun i u v => hp2 i u (by omega)) eD5
            (by rw [eD2, c2])
          rw [hfull, hE.1, eD1, ht1d]
      have hne : (delayScan r (List.range' 0 (maxCode + 1)) delayInit).delay ≠
          -1 := by
        rw [hfinal]
        exact ofNat_ne_neg_one _
      refine ⟨?_, ?_, ?_⟩
      · simp only [eswin_sdhci_sdio_delay_tuning]
        rw [if_neg hne]
      · simp only [eswin_sdhci_sdio_delay_tuning]
        rw [if_neg hne]
        exact hfinal
      · simp only [eswin_sdhci_sdio_delay_tuning]
        rw [if_neg hne]
        try dsimp only
        rw [hfinal]
        exact fun hx => hmidne hx.symm

set_option maxRecDepth 10000 in
/-- C3 is refuted as stated: under the oracle whose passing runs are
`[0, 21]` (width 21) followed by `[23, 45]` (width 22), within
`[0, 46]`, the claim requires the scanner to commit the wider run's midpoint
34 and never the narrower run's midpoint 10; but the first run's width
exceeds the early-exit threshold 20, so the scanner stops at delay code 22
and commits 10, the midpoint of the narrower run. -/
theorem claim_C3_counterexample :
    (∀ i, i < 47 → (oraTwoRuns 0 21 23 45 i = 0 ↔
      ((0 ≤ i ∧ i ≤ 21) ∨ (23 ≤ i ∧ i ≤ 45)))) ∧
    (eswin_sdhci_sdio_delay_tuning (oraTwoRuns 0 21 23 45) 46 0).ret = 0 ∧
    (eswin_sdhci_sdio_delay_tuning (oraTwoRuns 0 21 23 45) 46 0).committed =
      Int.ofNat ((0 + 21) / 2) ∧
    (eswin_sdhci_sdio_delay_tuning (oraTwoRuns 0 21 23 45) 46 0).committed ≠
      Int.ofNat ((23 + 45) / 2) := by
  refine ⟨?_, ?_, ?_, ?_⟩ <;> decide

/-- Witness: `claim_C3_amended` part (i) at the oracle with runs `[2, 4]`
(width 2) and `[8, 20]` (width 12) inside `[0, 25]`: the scanner commits 14,
the wider run's midpoint, not 3. -/
theorem claim_C3_witness :
    (eswin_sdhci_sdio_delay_tuning (oraTwoRuns 2 4 8 20) 25 7).ret = 0 ∧
    (eswin_sdhci_sdio_delay_tuning (oraTwoRuns 2 4 8 20) 25 7).committed =
      Int.ofNat ((8 + 20) / 2) ∧
    (eswin_sdhci_sdio_delay_tuning (oraTwoRuns 2 4 8 20) 25 7).committed ≠
      Int.ofNat ((2 + 4) / 2) :=
  (claim_C3_amended (oraTwoRuns 2 4 8 20) 25 2 4 8 20 7 (by decide) (by decide)
    (by decide) (by decide) (by decide)).1 (by decide) (by decide) (by decide)
